import Mathlib

/-!
Verification of the Nonogram solving engine in `solver.py`.

Shallow embedding conventions:
* a cell is an `Int`: `-1` = Unknown, `0` = Blank, `1` = Filled (exactly the
  integers the Python code uses);
* a line is a `List Int`, a board a `List (List Int)`;
* Python's in-place mutation becomes explicit state passing; the `while`
  loop of `solve_with_constraint_propagation` keeps its literal iteration
  cap `1000` as fuel; the recursion of `solve_with_backtrack` gets an
  explicit fuel parameter that models the depth of the Python call stack
  (`none` = fuel exhausted, `some r` = the Python result `r`);
* Python list indexing `l[i]` becomes `l.getD i d`; every theorem below is
  stated under the length hypotheses that make the two coincide (Python
  would raise `IndexError` outside them).
-/

namespace Nonogram

abbrev Board := List (List Int)

/-- `get_blocks`, inner loop: `current_block` accumulates the run of `1`s. -/
def get_blocks_aux : List Int → Int → List Int
  | [], current => if current > 0 then [current] else []
  | c :: rest, current =>
      if c = 1 then get_blocks_aux rest (current + 1)
      else if current > 0 then current :: get_blocks_aux rest 0
      else get_blocks_aux rest 0

/-- `get_blocks(line)` from solver.py: run lengths of `1` cells, `[0]` if none. -/
def get_blocks (line : List Int) : List Int :=
  let blocks := get_blocks_aux line 0
  if blocks = [] then [0] else blocks

/-- Python `range(a, b)` over `Int` bounds. -/
def intRange (a b : Int) : List Int :=
  (List.range (b - a).toNat).map (fun i : Nat => a + (i : Int))

/-- The compatibility loop of `backtrack` in `generate_all_patterns`:
`marked_state[i] != -1 and marked_state[i] != pattern[i]` rejects, for every
`i < len(pattern)` (the Python loop indexes `marked_state` up to the pattern's
length; callers always have `len(marked_state) ≥ len(pattern)`). -/
def compat_check : List Int → List Int → Bool
  | _, [] => true
  | [], _ :: _ => true
  | m :: ms, p :: ps => (m == -1 || m == p) && compat_check ms ps

/-- The recursive `backtrack(pos, block_idx, current_pattern)` closure of
`generate_all_patterns`, with `hints[block_idx:]` passed as a list.
`block_idx == len(hints)` is the `[]` case; the final compatibility check
there runs over `range(length)`, which equals the built pattern's length
(the invariant `len(current_pattern) == pos ≤ length` holds at every call). -/
def backtrack_patterns (length : Nat) (marked : List Int) :
    List Int → Int → List Int → List (List Int)
  | [], pos, cur =>
      let pattern := cur ++ List.replicate ((length : Int) - pos).toNat 0
      if compat_check marked pattern then [pattern] else []
  | b :: rest, pos, cur =>
      (intRange pos ((length : Int) - b - (rest.sum + (rest.length : Int)) + 1)).flatMap
        (fun start =>
          let new_pattern :=
            cur ++ List.replicate (start - pos).toNat 0 ++ List.replicate b.toNat 1
          if compat_check marked new_pattern then
            if rest = [] then backtrack_patterns length marked rest (start + b) new_pattern
            else backtrack_patterns length marked rest (start + b + 1) (new_pattern ++ [0])
          else [])

/-- `generate_all_patterns(hints, length, marked_state)` from solver.py. -/
def generate_all_patterns (hints : List Int) (length : Nat) (marked : List Int) :
    List (List Int) :=
  if hints = [] ∨ hints = [0] then
    if (List.range length).all (fun i => marked.getD i (-1) == -1 || marked.getD i (-1) == 0)
    then [List.replicate length 0] else []
  else
    backtrack_patterns length marked hints 0 []

/-- Verification helper, not part of the source: the placements that
`backtrack_patterns` enumerates, with the compatibility filter removed (on an
all-`Unknown` line the filter accepts everything, so this coincides with the
enumeration; in general the enumeration is a subset of these placements). -/
def gen (L : Nat) : List Int → Int → List (List Int)
  | [], pos => [List.replicate ((L : Int) - pos).toNat 0]
  | b :: rest, pos =>
      (intRange pos ((L : Int) - b - (rest.sum + (rest.length : Int)) + 1)).flatMap
        (fun start =>
          if rest = [] then
            (gen L rest (start + b)).map
              (fun t => List.replicate (start - pos).toNat 0 ++
                List.replicate b.toNat 1 ++ t)
          else
            (gen L rest (start + b + 1)).map
              (fun t => List.replicate (start - pos).toNat 0 ++
                List.replicate b.toNat 1 ++ 0 :: t))

/-- The `[0]`-clue branch shared by both line solvers: every `Unknown` (`-1`)
cell becomes `Blank` (`0`).  (Python iterates `i in range(length)`; callers
always have `len(marked_state) == length`.) -/
def blank_unknowns (line : List Int) : List Int :=
  line.map (fun c => if c = -1 then 0 else c)

/-- The inner marking loop of `determine_certain_by_range`: positions `i` with
`certain_start ≤ i ≤ certain_end` that are still `-1` become `1`.  The second
argument is the running index (Python clamps with `max(0, ...)`/`min(length, ...)`,
which is exactly what traversing the existing indices does). -/
def mark_range (cs ce : Int) : List Int → Int → List Int
  | [], _ => []
  | c :: rest, i =>
      (if cs ≤ i ∧ i ≤ ce ∧ c = -1 then 1 else c) :: mark_range cs ce rest (i + 1)

/-- The `for block_idx, block_size in enumerate(hints)` loop of
`determine_certain_by_range`; `prefSum = sum(hints[:block_idx])`,
`idx = block_idx`. -/
def range_blocks (length : Nat) : List Int → Int → Int → List Int → List Int
  | [], _, _, result => result
  | b :: rest, prefSum, idx, result =>
      let left_start := prefSum + idx
      let right_space := rest.sum + (rest.length : Int)
      let right_start := (length : Int) - b - right_space
      let left_end := left_start + b - 1
      range_blocks length rest (prefSum + b) (idx + 1)
        (mark_range right_start left_end result 0)

/-- `determine_certain_by_range(hints, length, marked_state)` from solver.py. -/
def determine_certain_by_range (hints : List Int) (length : Nat) (marked : List Int) :
    List Int :=
  if hints = [] ∨ hints = [0] then blank_unknowns marked
  else range_blocks length hints 0 0 marked

/-- The intersection loop of `determine_certain_by_patterns`: at each still
`-1` position, if all patterns agree with `all_valid_patterns[0]` there, fix
the value.  `p0` is `all_valid_patterns[0]`; the second argument is the
running index. -/
def intersect_patterns (pats : List (List Int)) (p0 : List Int) :
    List Int → Nat → List Int
  | [], _ => []
  | c :: rest, i =>
      (if c = -1 then
        (if pats.all (fun p => p.getD i 0 == p0.getD i 0) then p0.getD i 0 else c)
       else c) :: intersect_patterns pats p0 rest (i + 1)

/-- `determine_certain_by_patterns(hints, length, marked_state)` from solver.py. -/
def determine_certain_by_patterns (hints : List Int) (length : Nat) (marked : List Int) :
    List Int :=
  if hints = [] ∨ hints = [0] then blank_unknowns marked
  else
    match generate_all_patterns hints length marked with
    | [] => marked
    | p0 :: ps => intersect_patterns (p0 :: ps) p0 marked 0

/-- `determine_certain_cells(hints, length, marked_state)` from solver.py:
the dispatcher. -/
def determine_certain_cells (hints : List Int) (length : Nat) (marked : List Int) :
    List Int :=
  if marked.any (fun c => c != -1) then determine_certain_by_patterns hints length marked
  else determine_certain_by_range hints length marked

/-- `is_valid_board(board, row_hints, col_hints)` from solver.py. -/
def is_valid_board (board : Board) (row_hints col_hints : List (List Int)) : Bool :=
  (let num_rows := board.length
   let num_cols := (board.headD []).length
   ((List.range num_rows).all fun r =>
      let row_state := board.getD r []
      if row_state.all (fun c => c != -1) then get_blocks row_state == row_hints.getD r []
      else true)
   &&
   ((List.range num_cols).all fun c =>
      let col_state := (List.range num_rows).map (fun r => (board.getD r []).getD c (-1))
      if col_state.all (fun x => x != -1) then get_blocks col_state == col_hints.getD c []
      else true))

/-- The cell of `board` at row `r`, column `c` (`board[r][c]`). -/
def cellAt (board : Board) (r c : Nat) : Int :=
  (board.getD r []).getD c (-1)

/-- Write-back of one inferred column, `board[r][col] = new_col_state[r]` for
each row; the running second index is the row counter.  The `getD` default is
the old cell, so rows past `new_col_state`'s end are untouched (Python's loop
stops at `num_rows = len(new_col_state)`). -/
def set_col (c : Nat) (newCol : List Int) : Board → Nat → Board
  | [], _ => []
  | row :: rest, r =>
      row.set c (newCol.getD r (row.getD c (-1))) :: set_col c newCol rest (r + 1)

/-- One column step of the propagation loop: read column `c`, run the
dispatcher on it, write it back, and record whether any cell changed. -/
def colStep (col_hints : List (List Int)) (num_rows : Nat)
    (bc : Board × Bool) (c : Nat) : Board × Bool :=
  let colState := (List.range num_rows).map (fun r => (bc.1.getD r []).getD c (-1))
  let newCol := determine_certain_cells (col_hints.getD c []) num_rows colState
  let changedHere :=
    (List.range num_rows).any (fun r => !((bc.1.getD r []).getD c (-1) == newCol.getD r (-1)))
  (set_col c newCol bc.1 0, bc.2 || changedHere)

/-- One row step of the propagation loop: run the dispatcher on row `r`,
write it back, and record whether any cell changed. -/
def rowStep (row_hints : List (List Int)) (num_cols : Nat)
    (bc : Board × Bool) (r : Nat) : Board × Bool :=
  let rowState := bc.1.getD r []
  let newRow := determine_certain_cells (row_hints.getD r []) num_cols rowState
  let changedHere :=
    (List.range num_cols).any (fun c => !(rowState.getD c (-1) == newRow.getD c (-1)))
  (bc.1.set r newRow, bc.2 || changedHere)

/-- One full pass of `solve_with_constraint_propagation`'s `while` body:
every column, then every row, threading the `changed` flag. -/
def onePass (row_hints col_hints : List (List Int)) (num_rows num_cols : Nat)
    (b : Board) : Board × Bool :=
  (List.range num_rows).foldl (rowStep row_hints num_cols)
    ((List.range num_cols).foldl (colStep col_hints num_rows) (b, false))

/-- The `while changed and iteration < max_iterations` loop; the fuel is the
remaining iteration budget. -/
def propLoop (row_hints col_hints : List (List Int)) (num_rows num_cols : Nat) :
    Nat → Board → Board
  | 0, b => b
  | n + 1, b =>
      let r := onePass row_hints col_hints num_rows num_cols b
      if r.2 then propLoop row_hints col_hints num_rows num_cols n r.1 else r.1

/-- `solve_with_constraint_propagation(board, row_hints, col_hints)` from
solver.py (`max_iterations = 1000`). -/
def solve_with_constraint_propagation (board : Board)
    (row_hints col_hints : List (List Int)) : Board :=
  propLoop row_hints col_hints board.length (board.headD []).length 1000 board

/-- The inner column scan of `solve_with_backtrack`'s unknown-cell search. -/
def first_unknown_in_row : List Int → Option Nat
  | [] => none
  | c :: rest =>
      if c = -1 then some 0 else Option.map (fun n => n + 1) (first_unknown_in_row rest)

/-- The row-major scan for the first `-1` cell in `solve_with_backtrack`. -/
def first_unknown : Board → Option (Nat × Nat)
  | [] => none
  | row :: rest =>
      match first_unknown_in_row row with
      | some c => some (0, c)
      | none =>
          match first_unknown rest with
          | some rc => some (rc.1 + 1, rc.2)
          | none => none

/-- `board_copy = [row[:] for row in board]; board_copy[r][c] = v`. -/
def setCell (board : Board) (r c : Nat) (v : Int) : Board :=
  board.set r ((board.getD r []).set c v)

/-- `solve_with_backtrack(board, row_hints, col_hints)` from solver.py.
The `fuel` parameter models the Python call stack: `none` means the fuel ran
out (never happens with enough fuel, see the termination theorem), and
`some r` is the Python return value (`r = none` is Python's `None`). -/
def solve_with_backtrack (row_hints col_hints : List (List Int)) :
    Nat → Board → Option (Option Board)
  | 0, _ => none
  | fuel + 1, board =>
      let b := solve_with_constraint_propagation board row_hints col_hints
      match first_unknown b with
      | none =>
          if is_valid_board b row_hints col_hints then some (some b) else some none
      | some rc =>
          match solve_with_backtrack row_hints col_hints fuel (setCell b rc.1 rc.2 1) with
          | none => none
          | some (some result) => some (some result)
          | some none =>
              match solve_with_backtrack row_hints col_hints fuel (setCell b rc.1 rc.2 0) with
              | none => none
              | some (some result) => some (some result)
              | some none => some none

/-- The number of `-1` cells of a board. -/
def unknownCount (b : Board) : Nat :=
  (b.map (fun row => row.countP (fun c => c == -1))).sum

/-- The columns-only iteration of `NonogramUI.solve_puzzle` (run when
`iteration % 2 == 0`): same write-back as the propagation engine's column
phase, but with a fresh `changed` flag. -/
def ui_col_pass (col_hints : List (List Int)) (num_rows num_cols : Nat) (b : Board) :
    Board × Bool :=
  (List.range num_cols).foldl (colStep col_hints num_rows) (b, false)

/-- The rows-only iteration of `NonogramUI.solve_puzzle` (run when
`iteration % 2 == 1`). -/
def ui_row_pass (row_hints : List (List Int)) (num_rows num_cols : Nat) (b : Board) :
    Board × Bool :=
  (List.range num_rows).foldl (rowStep row_hints num_cols) (b, false)

/-- The body of one `solve_puzzle` iteration: columns on even iteration
numbers, rows on odd ones. -/
def ui_iteration (row_hints col_hints : List (List Int)) (num_rows num_cols : Nat)
    (iter : Nat) (b : Board) : Board × Bool :=
  if iter % 2 = 0 then ui_col_pass col_hints num_rows num_cols b
  else ui_row_pass row_hints num_rows num_cols b

/-- The `for iteration in range(10)` loop of `NonogramUI.solve_puzzle`:
after each iteration the board snapshot is appended to `board_history`,
then the loop breaks if nothing changed. -/
def ui_loop (row_hints col_hints : List (List Int)) (num_rows num_cols : Nat) :
    Nat → Nat → Board → List Board → Board × List Board
  | 0, _, b, hist => (b, hist)
  | n + 1, iter, b, hist =>
      let r := ui_iteration row_hints col_hints num_rows num_cols iter b
      let hist' := hist ++ [r.1]
      if r.2 then ui_loop row_hints col_hints num_rows num_cols n (iter + 1) r.1 hist'
      else (r.1, hist')

/-- `NonogramUI.solve_puzzle` from solver.py (`max_iterations = 10`), returning
the final board together with `board_history`. -/
def solve_puzzle (row_hints col_hints : List (List Int)) : Board × List Board :=
  let num_rows := row_hints.length
  let num_cols := col_hints.length
  ui_loop row_hints col_hints num_rows num_cols 10 0
    (List.replicate num_rows (List.replicate num_cols (-1))) []

/-- Verification helper: the board after `k` consecutive `solve_puzzle`
iterations starting at iteration number `iter`. -/
def ui_runs (row_hints col_hints : List (List Int)) (num_rows num_cols : Nat) :
    Nat → Board → Nat → Board
  | _, b, 0 => b
  | iter, b, k + 1 =>
      ui_runs row_hints col_hints num_rows num_cols (iter + 1)
        (ui_iteration row_hints col_hints num_rows num_cols iter b).1 k

/-- Rectangularity, stated positionally: every row of the board has length
`nc`. -/
def RectW (b : Board) (nc : Nat) : Prop :=
  ∀ r, r < b.length → (b.getD r []).length = nc

/-- Preservation order between boards: the second board keeps every
non-`Unknown` cell of the first and has the same dimensions. -/
def BoardLe (b b' : Board) : Prop :=
  b.length = b'.length ∧
  (∀ r, (b.getD r []).length = (b'.getD r []).length) ∧
  (∀ r c, cellAt b r c ≠ -1 → cellAt b' r c = cellAt b r c)

/-- Two boards of the same dimensions. -/
def BoardDims (b b' : Board) : Prop :=
  b.length = b'.length ∧ ∀ r, (b.getD r []).length = (b'.getD r []).length

/-- Helper predicate for the proof of the range characterization: position `i`
lies in the forced interval of some block of the remaining `hints`, where
`s` is the sum of the previous blocks and `k` their number. -/
def CovAux (L : Nat) : List Int → Int → Int → Nat → Prop
  | [], _, _, _ => False
  | b :: rest, s, k, i =>
      ((L : Int) - b - (rest.sum + (rest.length : Int)) ≤ (i : Int) ∧
        (i : Int) ≤ s + k + b - 1) ∨ CovAux L rest (s + b) (k + 1) i

/-- `§4.2` of the spec, transcribed: block `j` (0-based) of the clue has
leftmost start `sum(hints[:j]) + j` and rightmost start
`L - hints[j] - (sum(hints[j+1:]) + len(hints[j+1:]))`; position `i` is in the
forced-filled interval `[rightmost_start, leftmost_start + hints[j] - 1]` of
some block. -/
def range_rule_covers (hints : List Int) (L : Nat) (i : Nat) : Prop :=
  ∃ j, j < hints.length ∧
    (L : Int) - hints.getD j 0 - ((hints.drop (j + 1)).sum + ((hints.drop (j + 1)).length : Int))
      ≤ (i : Int) ∧
    (i : Int) ≤ (hints.take j).sum + j + hints.getD j 0 - 1

open Classical

/-! ### Basic list lemmas -/

theorem getD_of_le_length {α : Type} (l : List α) (i : Nat) (d : α) (h : l.length ≤ i) :
    l.getD i d = d := by
  induction l generalizing i with
  | nil => rfl
  | cons x xs ih =>
      cases i with
      | zero => simp at h
      | succ j => simpa [List.getD] using ih j (by simpa using h)

theorem getD_irrel {α : Type} (l : List α) (i : Nat) (d d' : α) (h : i < l.length) :
    l.getD i d = l.getD i d' := by
  induction l generalizing i with
  | nil => simp at h
  | cons x xs ih =>
      cases i with
      | zero => rfl
      | succ j => simpa [List.getD] using ih j (by simpa using h)

theorem getD_set_char {α : Type} (l : List α) (c : Nat) (v : α) (i : Nat) (d : α) :
    (l.set c v).getD i d = if i = c ∧ c < l.length then v else l.getD i d := by
  induction l generalizing c i with
  | nil => simp [List.set]
  | cons x xs ih =>
      cases c with
      | zero =>
          cases i with
          | zero => simp
          | succ j => simp [List.getD]
      | succ c' =>
          cases i with
          | zero => simp [List.getD]
          | succ j =>
              simp only [List.set, List.getD_cons_succ, List.length_cons]
              rw [ih c' j]
              by_cases h : j = c' ∧ c' < xs.length
              · rw [if_pos h, if_pos ⟨by omega, by omega⟩]
              · rw [if_neg h, if_neg (by omega)]

theorem set_getD_self {α : Type} (l : List α) (c : Nat) (d : α) :
    l.set c (l.getD c d) = l := by
  induction l generalizing c with
  | nil => rfl
  | cons x xs ih =>
      cases c with
      | zero => rfl
      | succ c' =>
          simp only [List.set, List.getD_cons_succ]
          rw [ih]

theorem getD_replicate_char {α : Type} (n : Nat) (a : α) (i : Nat) (d : α) :
    (List.replicate n a).getD i d = if i < n then a else d := by
  induction n generalizing i with
  | zero => simp
  | succ m ih =>
      cases i with
      | zero => simp
      | succ j =>
          simp only [List.replicate, List.getD_cons_succ]
          rw [ih j]
          by_cases h : j < m
          · rw [if_pos h, if_pos (by omega)]
          · rw [if_neg h, if_neg (by omega)]

theorem range_map_getD {α : Type} (n : Nat) (f : Nat → α) (i : Nat) (d : α) :
    ((List.range n).map f).getD i d = if i < n then f i else d := by
  by_cases h : i < n
  · rw [if_pos h]
    have hlen : i < ((List.range n).map f).length := by simpa using h
    rw [List.getD_eq_getElem _ _ hlen]
    simp
  · rw [if_neg h, getD_of_le_length]
    simpa using Nat.le_of_not_lt h

theorem ext_of_getD {α : Type} (l l' : List α) (d : α) (hlen : l.length = l'.length)
    (h : ∀ i, i < l.length → l.getD i d = l'.getD i d) : l = l' := by
  induction l generalizing l' with
  | nil => cases l' with
      | nil => rfl
      | cons y ys => simp at hlen
  | cons x xs ih =>
      cases l' with
      | nil => simp at hlen
      | cons y ys =>
          have h0 := h 0 (by simp)
          simp only [List.getD_cons_zero] at h0
          subst h0
          have := ih ys (by simpa using hlen)
            (fun i hi => by simpa [List.getD] using h (i + 1) (by simpa using hi))
          simp [this]

theorem getD_append_left {α : Type} (l t : List α) (i : Nat) (d : α) (h : i < l.length) :
    (l ++ t).getD i d = l.getD i d := by
  induction l generalizing i with
  | nil => simp at h
  | cons x xs ih =>
      cases i with
      | zero => rfl
      | succ j => simpa [List.getD] using ih j (by simpa using h)

theorem getD_append_right {α : Type} (l t : List α) (i : Nat) (d : α) (h : l.length ≤ i) :
    (l ++ t).getD i d = t.getD (i - l.length) d := by
  induction l generalizing i with
  | nil => simp
  | cons x xs ih =>
      cases i with
      | zero => simp at h
      | succ j =>
          simp only [List.cons_append, List.getD_cons_succ, List.length_cons]
          rw [ih j (by simpa using h)]
          congr 1
          omega

/-! ### Characterizations of the indexed line operations -/

theorem blank_unknowns_length (s : List Int) : (blank_unknowns s).length = s.length := by
  simp [blank_unknowns]

theorem blank_unknowns_getD (s : List Int) (i : Nat) (h : i < s.length) :
    (blank_unknowns s).getD i (-1) =
      if s.getD i (-1) = -1 then 0 else s.getD i (-1) := by
  induction s generalizing i with
  | nil => simp at h
  | cons x xs ih =>
      cases i with
      | zero => simp [blank_unknowns]
      | succ j => simpa [blank_unknowns, List.getD] using ih j (by simpa using h)

theorem mark_range_length (cs ce : Int) (s : List Int) (i0 : Int) :
    (mark_range cs ce s i0).length = s.length := by
  induction s generalizing i0 with
  | nil => rfl
  | cons x xs ih => simp [mark_range, ih]

theorem mark_range_getD (cs ce : Int) (s : List Int) (i0 : Int) (i : Nat) (h : i < s.length) :
    (mark_range cs ce s i0).getD i (-1) =
      if cs ≤ i0 + i ∧ i0 + i ≤ ce ∧ s.getD i (-1) = -1 then 1 else s.getD i (-1) := by
  induction s generalizing i0 i with
  | nil => simp at h
  | cons x xs ih =>
      cases i with
      | zero => simp [mark_range]
      | succ j =>
          have := ih (i0 + 1) j (by simpa using h)
          simp only [mark_range, List.getD_cons_succ]
          rw [this]
          by_cases hc : cs ≤ i0 + 1 + j ∧ i0 + 1 + j ≤ ce ∧ xs.getD j (-1) = -1
          · rw [if_pos hc, if_pos ⟨by push_cast; omega, by push_cast; omega, by
              simpa [List.getD] using hc.2.2⟩]
          · rw [if_neg hc, if_neg (by
              intro hcon
              exact hc ⟨by have := hcon.1; push_cast at this ⊢; omega,
                by have := hcon.2.1; push_cast at this ⊢; omega,
                by simpa [List.getD] using hcon.2.2⟩)]

theorem intersect_patterns_length (pats : List (List Int)) (p0 : List Int)
    (s : List Int) (i0 : Nat) : (intersect_patterns pats p0 s i0).length = s.length := by
  induction s generalizing i0 with
  | nil => rfl
  | cons x xs ih => simp [intersect_patterns, ih]

theorem intersect_patterns_getD (pats : List (List Int)) (p0 : List Int)
    (s : List Int) (i0 : Nat) (i : Nat) (h : i < s.length) :
    (intersect_patterns pats p0 s i0).getD i (-1) =
      if s.getD i (-1) = -1 ∧ (pats.all (fun p => p.getD (i0 + i) 0 == p0.getD (i0 + i) 0)) = true
      then p0.getD (i0 + i) 0 else s.getD i (-1) := by
  induction s generalizing i0 i with
  | nil => simp at h
  | cons x xs ih =>
      cases i with
      | zero =>
          simp only [intersect_patterns, List.getD_cons_zero, Nat.add_zero]
          by_cases hx : x = -1
          · by_cases hall : (pats.all (fun p => p.getD i0 0 == p0.getD i0 0)) = true
            · simp [hx, hall]
            · simp [hx, hall]
          · simp [hx]
      | succ j =>
          have := ih (i0 + 1) j (by simpa using h)
          simp only [intersect_patterns, List.getD_cons_succ]
          rw [this]
          have harith : i0 + 1 + j = i0 + (j + 1) := by omega
          rw [harith]

/-! ### Characterization of `determine_certain_by_range` -/

theorem covAux_iff (L : Nat) (hints : List Int) (s k : Int) (i : Nat) :
    CovAux L hints s k i ↔
      ∃ j, j < hints.length ∧
        (L : Int) - hints.getD j 0 -
            ((hints.drop (j + 1)).sum + ((hints.drop (j + 1)).length : Int)) ≤ (i : Int) ∧
        (i : Int) ≤ s + (hints.take j).sum + (k + j) + hints.getD j 0 - 1 := by
  induction hints generalizing s k with
  | nil => simp [CovAux]
  | cons b rest ih =>
      constructor
      · intro h
        cases h with
        | inl h0 =>
            exact ⟨0, by simp, by simpa using h0.1, by
              simpa using h0.2⟩
        | inr hr =>
            obtain ⟨j, hj, h1, h2⟩ := (ih (s + b) (k + 1)).1 hr
            refine ⟨j + 1, by simpa using hj, by simpa using h1, ?_⟩
            simp only [List.take_succ_cons, List.sum_cons, List.getD_cons_succ]
            push_cast at h2 ⊢
            omega
      · rintro ⟨j, hj, h1, h2⟩
        cases j with
        | zero =>
            exact Or.inl ⟨by simpa using h1, by simpa using h2⟩
        | succ j' =>
            refine Or.inr ((ih (s + b) (k + 1)).2 ⟨j', by simpa using hj,
              by simpa using h1, ?_⟩)
            simp only [List.take_succ_cons, List.sum_cons, List.getD_cons_succ] at h2
            push_cast at h2 ⊢
            omega

theorem range_blocks_length (L : Nat) (hints : List Int) (s k : Int) (res : List Int) :
    (range_blocks L hints s k res).length = res.length := by
  induction hints generalizing s k res with
  | nil => rfl
  | cons b rest ih => simp [range_blocks, ih, mark_range_length]

theorem covAux_cons (L : Nat) (b : Int) (rest : List Int) (s k : Int) (i : Nat) :
    CovAux L (b :: rest) s k i ↔
      (((L : Int) - b - (rest.sum + (rest.length : Int)) ≤ (i : Int) ∧
        (i : Int) ≤ s + k + b - 1) ∨ CovAux L rest (s + b) (k + 1) i) := Iff.rfl

theorem range_blocks_getD (L : Nat) (hints : List Int) (s k : Int) (res : List Int)
    (i : Nat) (h : i < res.length) :
    (range_blocks L hints s k res).getD i (-1) =
      if res.getD i (-1) = -1 ∧ CovAux L hints s k i then 1 else res.getD i (-1) := by
  induction hints generalizing s k res with
  | nil => simp [range_blocks, CovAux]
  | cons b rest ih =>
      simp only [range_blocks]
      rw [ih _ _ _ (by rw [mark_range_length]; exact h)]
      rw [mark_range_getD _ _ _ _ _ h]
      by_cases hA : ((L : Int) - b - (rest.sum + (rest.length : Int)) ≤ 0 + (i : Int) ∧
          0 + (i : Int) ≤ s + k + b - 1 ∧ res.getD i (-1) = -1)
      · rw [if_pos hA]
        rw [if_neg (fun hcon => absurd hcon.1 (by decide))]
        rw [if_pos ⟨hA.2.2, (covAux_cons L b rest s k i).2 (Or.inl ⟨by omega, by omega⟩)⟩]
      · rw [if_neg hA]
        by_cases hu : res.getD i (-1) = -1
        · by_cases h2 : CovAux L rest (s + b) (k + 1) i
          · rw [if_pos ⟨hu, h2⟩,
              if_pos ⟨hu, (covAux_cons L b rest s k i).2 (Or.inr h2)⟩]
          · rw [if_neg (fun hcon => h2 hcon.2)]
            rw [if_neg (fun hcon => ?_)]
            rcases (covAux_cons L b rest s k i).1 hcon.2 with hc | hc
            · exact hA ⟨by omega, by omega, hu⟩
            · exact h2 hc
        · rw [if_neg (fun hcon => hu hcon.1), if_neg (fun hcon => hu hcon.1)]

theorem determine_certain_by_range_length (hints : List Int) (L : Nat) (s : List Int) :
    (determine_certain_by_range hints L s).length = s.length := by
  unfold determine_certain_by_range
  split
  · exact blank_unknowns_length s
  · exact range_blocks_length L hints 0 0 s

/-- Full characterization of the range method on non-`[0]` clues. -/
theorem determine_certain_by_range_getD (hints : List Int) (L : Nat) (s : List Int)
    (hne : ¬(hints = [] ∨ hints = [0])) (i : Nat) (h : i < s.length) :
    (determine_certain_by_range hints L s).getD i (-1) =
      if s.getD i (-1) = -1 ∧ range_rule_covers hints L i then 1 else s.getD i (-1) := by
  unfold determine_certain_by_range
  rw [if_neg hne]
  rw [range_blocks_getD L hints 0 0 s i h]
  have hiff : CovAux L hints 0 0 i ↔ range_rule_covers hints L i := by
    rw [covAux_iff]
    unfold range_rule_covers
    constructor
    · rintro ⟨j, hj, h1, h2⟩
      exact ⟨j, hj, h1, by omega⟩
    · rintro ⟨j, hj, h1, h2⟩
      exact ⟨j, hj, h1, by omega⟩
  by_cases hc : s.getD i (-1) = -1 ∧ CovAux L hints 0 0 i
  · rw [if_pos hc, if_pos ⟨hc.1, hiff.1 hc.2⟩]
  · rw [if_neg hc, if_neg (by intro hcon; exact hc ⟨hcon.1, hiff.2 hcon.2⟩)]

/-! ### Length preservation of the line solvers -/

theorem determine_certain_by_patterns_length (hints : List Int) (L : Nat) (s : List Int) :
    (determine_certain_by_patterns hints L s).length = s.length := by
  unfold determine_certain_by_patterns
  split
  · exact blank_unknowns_length s
  · split
    · rfl
    · exact intersect_patterns_length _ _ _ _

theorem determine_certain_cells_length (hints : List Int) (L : Nat) (s : List Int) :
    (determine_certain_cells hints L s).length = s.length := by
  unfold determine_certain_cells
  split
  · exact determine_certain_by_patterns_length hints L s
  · exact determine_certain_by_range_length hints L s

/-! ### Non-`Unknown` cells are never overwritten (line level) -/

theorem determine_certain_by_range_preserves (hints : List Int) (L : Nat) (s : List Int)
    (i : Nat) (h : s.getD i (-1) ≠ -1) :
    (determine_certain_by_range hints L s).getD i (-1) = s.getD i (-1) := by
  by_cases hi : i < s.length
  · unfold determine_certain_by_range
    split
    · rw [blank_unknowns_getD s i hi, if_neg h]
    · rw [range_blocks_getD L hints 0 0 s i hi, if_neg (by intro hcon; exact h hcon.1)]
  · rw [getD_of_le_length _ _ _ (by rw [determine_certain_by_range_length]; omega),
      getD_of_le_length _ _ _ (by omega)]

theorem determine_certain_by_patterns_preserves (hints : List Int) (L : Nat) (s : List Int)
    (i : Nat) (h : s.getD i (-1) ≠ -1) :
    (determine_certain_by_patterns hints L s).getD i (-1) = s.getD i (-1) := by
  by_cases hi : i < s.length
  · unfold determine_certain_by_patterns
    split
    · rw [blank_unknowns_getD s i hi, if_neg h]
    · split
      · rfl
      · rw [intersect_patterns_getD _ _ _ _ _ hi, if_neg (by intro hcon; exact h hcon.1)]
  · rw [getD_of_le_length _ _ _ (by rw [determine_certain_by_patterns_length]; omega),
      getD_of_le_length _ _ _ (by omega)]

theorem determine_certain_cells_preserves (hints : List Int) (L : Nat) (s : List Int)
    (i : Nat) (h : s.getD i (-1) ≠ -1) :
    (determine_certain_cells hints L s).getD i (-1) = s.getD i (-1) := by
  unfold determine_certain_cells
  split
  · exact determine_certain_by_patterns_preserves hints L s i h
  · exact determine_certain_by_range_preserves hints L s i h

/-! ### Board-level structure lemmas -/

theorem set_col_length (c : Nat) (newCol : List Int) (b : Board) (r0 : Nat) :
    (set_col c newCol b r0).length = b.length := by
  induction b generalizing r0 with
  | nil => rfl
  | cons row rest ih => simp [set_col, ih]

theorem set_col_getD (c : Nat) (newCol : List Int) (b : Board) (r0 r : Nat)
    (h : r < b.length) :
    (set_col c newCol b r0).getD r [] =
      (b.getD r []).set c (newCol.getD (r0 + r) ((b.getD r []).getD c (-1))) := by
  induction b generalizing r0 r with
  | nil => simp at h
  | cons row rest ih =>
      cases r with
      | zero => simp [set_col]
      | succ r' =>
          simp only [set_col, List.getD_cons_succ]
          rw [ih _ _ (by simpa using h)]
          congr 2
          omega

theorem set_col_row_length (c : Nat) (newCol : List Int) (b : Board) (r0 r : Nat) :
    ((set_col c newCol b r0).getD r []).length = (b.getD r []).length := by
  by_cases h : r < b.length
  · rw [set_col_getD _ _ _ _ _ h, List.length_set]
  · rw [getD_of_le_length _ _ _ (by rw [set_col_length]; omega),
      getD_of_le_length _ _ _ (by omega)]

theorem boardLe_refl (b : Board) : BoardLe b b :=
  ⟨rfl, fun _ => rfl, fun _ _ _ => rfl⟩

theorem boardLe_trans {a b c : Board} (h1 : BoardLe a b) (h2 : BoardLe b c) :
    BoardLe a c := by
  refine ⟨h1.1.trans h2.1, fun r => (h1.2.1 r).trans (h2.2.1 r), fun r cc hne => ?_⟩
  have hb := h1.2.2 r cc hne
  have := h2.2.2 r cc (by rw [hb]; exact hne)
  rw [this, hb]

theorem cellAt_default (b : Board) (r c : Nat)
    (h : ¬(r < b.length ∧ c < (b.getD r []).length)) : cellAt b r c = -1 := by
  unfold cellAt
  by_cases hr : r < b.length
  · have hc : (b.getD r []).length ≤ c := by
      rcases Nat.lt_or_ge c (b.getD r []).length with hlt | hge
      · exact absurd ⟨hr, hlt⟩ h
      · exact hge
    exact getD_of_le_length _ _ _ hc
  · rw [getD_of_le_length (l := b) _ _ (by omega)]
    simp

theorem colStep_boardLe (ch : List (List Int)) (nr : Nat) (bc : Board × Bool) (c : Nat) :
    BoardLe bc.1 (colStep ch nr bc c).1 := by
  unfold colStep
  refine ⟨(set_col_length _ _ _ _).symm, fun r => (set_col_row_length _ _ _ _ _).symm,
    fun r cc hne => ?_⟩
  by_cases hr : r < bc.1.length
  · unfold cellAt
    rw [set_col_getD _ _ _ _ _ hr]
    rw [getD_set_char]
    by_cases hc : cc = c ∧ c < (bc.1.getD r []).length
    · rw [if_pos hc]
      set colState := (List.range nr).map (fun r' => (bc.1.getD r' []).getD c (-1)) with hcs
      by_cases hrn : r < nr
      · have hcsr : colState.getD r (-1) = cellAt bc.1 r c := by
          rw [hcs, range_map_getD, if_pos hrn]
          rfl
        have hlen : colState.length = nr := by simp [hcs]
        have hcc : cellAt bc.1 r c ≠ -1 := by
          unfold cellAt at hne ⊢
          rw [← hc.1]
          exact hne
        have hpres := determine_certain_cells_preserves (ch.getD c []) nr colState r
          (by rw [hcsr]; exact hcc)
        have hlen2 : (determine_certain_cells (ch.getD c []) nr colState).length = nr := by
          rw [determine_certain_cells_length, hlen]
        rw [Nat.zero_add, getD_irrel _ _ _ (-1) (by omega), hpres, hcsr]
        unfold cellAt
        rw [hc.1]
      · have hlen2 : (determine_certain_cells (ch.getD c []) nr colState).length = nr := by
          rw [determine_certain_cells_length]; simp [hcs]
        rw [Nat.zero_add, getD_of_le_length _ _ _ (by omega)]
        rw [hc.1]
    · rw [if_neg hc]
  · have h1 : cellAt bc.1 r cc = -1 := cellAt_default _ _ _ (by omega)
    exact absurd h1 hne

theorem rowStep_boardLe (rh : List (List Int)) (nc : Nat) (bc : Board × Bool) (r : Nat) :
    BoardLe bc.1 (rowStep rh nc bc r).1 := by
  unfold rowStep
  refine ⟨by simp, fun r' => ?_, fun r' cc hne => ?_⟩
  · rw [getD_set_char]
    by_cases hr : r' = r ∧ r < bc.1.length
    · rw [if_pos hr, determine_certain_cells_length, hr.1]
    · rw [if_neg hr]
  · unfold cellAt
    rw [getD_set_char]
    by_cases hr : r' = r ∧ r < bc.1.length
    · rw [if_pos hr, hr.1]
      refine determine_certain_cells_preserves _ _ _ _ ?_
      rw [← hr.1]
      exact hne
    · rw [if_neg hr]

theorem foldl_boardLe {α : Type} (step : Board × Bool → α → Board × Bool)
    (hstep : ∀ acc x, BoardLe acc.1 (step acc x).1) :
    ∀ (l : List α) (acc : Board × Bool), BoardLe acc.1 (l.foldl step acc).1 := by
  intro l
  induction l with
  | nil => intro acc; exact boardLe_refl _
  | cons x xs ih =>
      intro acc
      exact boardLe_trans (hstep acc x) (ih (step acc x))

theorem onePass_boardLe (rh ch : List (List Int)) (nr nc : Nat) (b : Board) :
    BoardLe b (onePass rh ch nr nc b).1 := by
  unfold onePass
  exact boardLe_trans
    (foldl_boardLe _ (colStep_boardLe ch nr) (List.range nc) (b, false))
    (foldl_boardLe _ (rowStep_boardLe rh nc) (List.range nr)
      ((List.range nc).foldl (colStep ch nr) (b, false)))

theorem propLoop_boardLe (rh ch : List (List Int)) (nr nc : Nat) (fuel : Nat) (b : Board) :
    BoardLe b (propLoop rh ch nr nc fuel b) := by
  induction fuel generalizing b with
  | zero => exact boardLe_refl b
  | succ n ih =>
      simp only [propLoop]
      split
      · exact boardLe_trans (onePass_boardLe rh ch nr nc b) (ih _)
      · exact onePass_boardLe rh ch nr nc b

theorem solve_with_constraint_propagation_boardLe (b : Board) (rh ch : List (List Int)) :
    BoardLe b (solve_with_constraint_propagation b rh ch) :=
  propLoop_boardLe rh ch b.length (b.headD []).length 1000 b

/-! ### Unknown-cell counting -/

theorem unknownCount_cons (row : List Int) (rest : Board) :
    unknownCount (row :: rest) = row.countP (fun c => c == -1) + unknownCount rest := by
  simp [unknownCount]

theorem countP_le_of_preserves (l l' : List Int) (hlen : l.length = l'.length)
    (h : ∀ i, i < l.length → l.getD i (-1) ≠ -1 → l'.getD i (-1) = l.getD i (-1)) :
    l'.countP (fun c => c == -1) ≤ l.countP (fun c => c == -1) := by
  induction l generalizing l' with
  | nil =>
      cases l' with
      | nil => exact Nat.le_refl _
      | cons y ys => simp at hlen
  | cons x xs ih =>
      cases l' with
      | nil => simp at hlen
      | cons y ys =>
          have htail := ih ys (by simpa using hlen)
            (fun i hi hne => by
              simpa [List.getD] using h (i + 1) (by simpa using hi)
                (by simpa [List.getD] using hne))
          simp only [List.countP_cons]
          by_cases hx : x = -1
          · have h1 : (if (x == -1) = true then 1 else 0) = 1 := by simp [hx]
            have h2 : (if (y == -1) = true then 1 else 0) ≤ 1 := by split <;> omega
            omega
          · have hy := h 0 (by simp) (by simpa using hx)
            simp only [List.getD_cons_zero] at hy
            rw [hy]
            omega

theorem boardLe_tail (x y : List Int) (xs ys : Board) (h : BoardLe (x :: xs) (y :: ys)) :
    BoardLe xs ys := by
  refine ⟨by simpa using h.1, fun r => ?_, fun r c hne => ?_⟩
  · simpa [List.getD] using h.2.1 (r + 1)
  · have := h.2.2 (r + 1) c (by simpa [cellAt, List.getD] using hne)
    simpa [cellAt, List.getD] using this

theorem boardLe_unknownCount (b b' : Board) (h : BoardLe b b') :
    unknownCount b' ≤ unknownCount b := by
  induction b generalizing b' with
  | nil =>
      cases b' with
      | nil => exact Nat.le_refl _
      | cons y ys => simp [BoardLe] at h
  | cons x xs ih =>
      cases b' with
      | nil => simp [BoardLe] at h
      | cons y ys =>
          rw [unknownCount_cons, unknownCount_cons]
          have hhead : y.countP (fun c => c == -1) ≤ x.countP (fun c => c == -1) := by
            refine countP_le_of_preserves x y (by simpa using h.2.1 0) (fun i hi hne => ?_)
            have := h.2.2 0 i (by simpa [cellAt] using hne)
            simpa [cellAt] using this
          have htail := ih ys (boardLe_tail x y xs ys h)
          omega

theorem countP_set_succ (l : List Int) (c : Nat) (v : Int) (hv : v ≠ -1)
    (hc : c < l.length) (hu : l.getD c (-1) = -1) :
    (l.set c v).countP (fun x => x == -1) + 1 = l.countP (fun x => x == -1) := by
  induction l generalizing c with
  | nil => simp at hc
  | cons x xs ih =>
      cases c with
      | zero =>
          simp only [List.getD_cons_zero] at hu
          subst hu
          simp only [List.set, List.countP_cons]
          have hvf : (v == -1) = false := by simpa using hv
          simp [hvf]
      | succ c' =>
          simp only [List.getD_cons_succ] at hu
          have := ih c' (by simpa using hc) hu
          simp only [List.set, List.countP_cons]
          omega

theorem setCell_cons_succ (x : List Int) (xs : Board) (r c : Nat) (v : Int) :
    setCell (x :: xs) (r + 1) c v = x :: setCell xs r c v := by
  simp [setCell, List.getD]

theorem setCell_unknownCount (b : Board) (r c : Nat) (v : Int) (hv : v ≠ -1)
    (hr : r < b.length) (hc : c < (b.getD r []).length) (hu : cellAt b r c = -1) :
    unknownCount (setCell b r c v) + 1 = unknownCount b := by
  induction b generalizing r with
  | nil => simp at hr
  | cons x xs ih =>
      cases r with
      | zero =>
          have h1 : setCell (x :: xs) 0 c v = x.set c v :: xs := by
            simp [setCell]
          rw [h1, unknownCount_cons, unknownCount_cons]
          have := countP_set_succ x c v hv (by simpa using hc) (by simpa [cellAt] using hu)
          omega
      | succ r' =>
          rw [setCell_cons_succ, unknownCount_cons, unknownCount_cons]
          have := ih r' (by simpa using hr) (by simpa [List.getD] using hc)
            (by simpa [cellAt, List.getD] using hu)
          omega

/-! ### The unknown-cell scan -/

theorem first_unknown_in_row_none (l : List Int) (h : first_unknown_in_row l = none) :
    ∀ x ∈ l, x ≠ -1 := by
  induction l with
  | nil => intro x hx; simp at hx
  | cons c rest ih =>
      intro x hx
      unfold first_unknown_in_row at h
      by_cases hc : c = -1
      · rw [if_pos hc] at h
        simp at h
      · rw [if_neg hc] at h
        rcases List.mem_cons.mp hx with rfl | hmem
        · exact hc
        · cases hrec : first_unknown_in_row rest with
          | none => exact ih hrec x hmem
          | some n => rw [hrec] at h; simp at h

theorem first_unknown_in_row_some (l : List Int) (c : Nat)
    (h : first_unknown_in_row l = some c) : c < l.length ∧ l.getD c (-1) = -1 := by
  induction l generalizing c with
  | nil =>
      unfold first_unknown_in_row at h
      exact Option.noConfusion h
  | cons x rest ih =>
      unfold first_unknown_in_row at h
      by_cases hx : x = -1
      · rw [if_pos hx] at h
        simp only [Option.some.injEq] at h
        subst h
        simpa using hx
      · rw [if_neg hx] at h
        cases hrec : first_unknown_in_row rest with
        | none => rw [hrec] at h; simp at h
        | some n =>
            rw [hrec] at h
            simp at h
            subst h
            have := ih n hrec
            constructor
            · simpa using this.1
            · simpa [List.getD] using this.2

theorem first_unknown_none (b : Board) (h : first_unknown b = none) :
    ∀ row ∈ b, ∀ x ∈ row, x ≠ -1 := by
  induction b with
  | nil => intro row hrow; simp at hrow
  | cons row rest ih =>
      intro row' hrow'
      unfold first_unknown at h
      cases h1 : first_unknown_in_row row with
      | some cval => rw [h1] at h; simp at h
      | none =>
          rw [h1] at h
          cases h2 : first_unknown rest with
          | some rc => rw [h2] at h; simp at h
          | none =>
              rcases List.mem_cons.mp hrow' with rfl | hmem
              · exact first_unknown_in_row_none row' h1
              · exact ih h2 row' hmem

theorem first_unknown_some (b : Board) (r c : Nat) (h : first_unknown b = some (r, c)) :
    r < b.length ∧ c < (b.getD r []).length ∧ cellAt b r c = -1 := by
  induction b generalizing r with
  | nil =>
      unfold first_unknown at h
      exact Option.noConfusion h
  | cons row rest ih =>
      unfold first_unknown at h
      cases h1 : first_unknown_in_row row with
      | some cval =>
          rw [h1] at h
          simp only [Option.some.injEq, Prod.mk.injEq] at h
          obtain ⟨rfl, rfl⟩ := h
          have hrs := first_unknown_in_row_some row _ h1
          exact ⟨by simp, by simpa using hrs.1, by simpa [cellAt] using hrs.2⟩
      | none =>
          rw [h1] at h
          cases h2 : first_unknown rest with
          | none => rw [h2] at h; simp at h
          | some rc =>
              rw [h2] at h
              simp only [Option.some.injEq] at h
              have hr : r = rc.1 + 1 := by
                have := congrArg Prod.fst h
                simpa using this.symm
              have hcc : c = rc.2 := by
                have := congrArg Prod.snd h
                simpa using this.symm
              subst hr
              subst hcc
              have := ih rc.1 (by rw [h2])
              exact ⟨by simpa using this.1, by simpa [List.getD] using this.2.1,
                by simpa [cellAt, List.getD] using this.2.2⟩

/-! ### Dimension bookkeeping for the backtracking search -/

theorem boardDims_refl (b : Board) : BoardDims b b := ⟨rfl, fun _ => rfl⟩

theorem boardDims_trans {a b c : Board} (h1 : BoardDims a b) (h2 : BoardDims b c) :
    BoardDims a c := ⟨h1.1.trans h2.1, fun r => (h1.2 r).trans (h2.2 r)⟩

theorem boardLe_dims {b b' : Board} (h : BoardLe b b') : BoardDims b b' := ⟨h.1, h.2.1⟩

theorem setCell_dims (b : Board) (r c : Nat) (v : Int) : BoardDims b (setCell b r c v) := by
  refine ⟨by simp [setCell], fun r' => ?_⟩
  unfold setCell
  rw [getD_set_char]
  by_cases hr : r' = r ∧ r < b.length
  · rw [if_pos hr, List.length_set, hr.1]
  · rw [if_neg hr]

/-! ### Termination of the backtracking search (fuel bound) -/

theorem solve_with_backtrack_isSome (rh ch : List (List Int)) :
    ∀ (fuel : Nat) (b : Board), unknownCount b < fuel →
      (solve_with_backtrack rh ch fuel b).isSome = true := by
  intro fuel
  induction fuel with
  | zero => intro b hb; omega
  | succ n ih =>
      intro b hb
      unfold solve_with_backtrack
      have hle := solve_with_constraint_propagation_boardLe b rh ch
      set b' := solve_with_constraint_propagation b rh ch with hb'
      have hcnt : unknownCount b' ≤ unknownCount b := boardLe_unknownCount b b' hle
      cases hFU : first_unknown b' with
      | none =>
          simp only [hFU]
          split <;> simp
      | some rc =>
          have hpos := first_unknown_some b' rc.1 rc.2 (by rw [hFU])
          have hdec1 : unknownCount (setCell b' rc.1 rc.2 1) + 1 = unknownCount b' :=
            setCell_unknownCount b' rc.1 rc.2 1 (by decide) hpos.1 hpos.2.1 hpos.2.2
          have hdec0 : unknownCount (setCell b' rc.1 rc.2 0) + 1 = unknownCount b' :=
            setCell_unknownCount b' rc.1 rc.2 0 (by decide) hpos.1 hpos.2.1 hpos.2.2
          have h1 := ih (setCell b' rc.1 rc.2 1) (by omega)
          obtain ⟨x1, hx1⟩ := Option.isSome_iff_exists.mp h1
          cases x1 with
          | some result => simp [hFU, hx1]
          | none =>
              have h0 := ih (setCell b' rc.1 rc.2 0) (by omega)
              obtain ⟨x0, hx0⟩ := Option.isSome_iff_exists.mp h0
              cases x0 with
              | some result => simp [hFU, hx1, hx0]
              | none => simp [hFU, hx1, hx0]

/-! ### Soundness of boards returned by the backtracking search -/

theorem solve_with_backtrack_sound (rh ch : List (List Int)) :
    ∀ (fuel : Nat) (b res : Board),
      solve_with_backtrack rh ch fuel b = some (some res) →
      first_unknown res = none ∧ is_valid_board res rh ch = true ∧ BoardDims b res := by
  intro fuel
  induction fuel with
  | zero =>
      intro b res h
      unfold solve_with_backtrack at h
      exact Option.noConfusion h
  | succ n ih =>
      intro b res h
      unfold solve_with_backtrack at h
      have hle := solve_with_constraint_propagation_boardLe b rh ch
      set b' := solve_with_constraint_propagation b rh ch with hb'
      cases hFU : first_unknown b' with
      | none =>
          simp only [hFU] at h
          by_cases hv : is_valid_board b' rh ch = true
          · rw [if_pos hv] at h
            simp only [Option.some.injEq] at h
            subst h
            exact ⟨hFU, hv, boardLe_dims hle⟩
          · rw [if_neg hv] at h
            simp at h
      | some rc =>
          simp only [hFU] at h
          cases h1 : solve_with_backtrack rh ch n (setCell b' rc.1 rc.2 1) with
          | none => rw [h1] at h; exact Option.noConfusion h
          | some x1 =>
              rw [h1] at h
              cases x1 with
              | some result =>
                  simp only [Option.some.injEq] at h
                  subst h
                  have := ih (setCell b' rc.1 rc.2 1) result h1
                  exact ⟨this.1, this.2.1,
                    boardDims_trans (boardLe_dims hle)
                      (boardDims_trans (setCell_dims b' rc.1 rc.2 1) this.2.2)⟩
              | none =>
                  cases h0 : solve_with_backtrack rh ch n (setCell b' rc.1 rc.2 0) with
                  | none => rw [h0] at h; exact Option.noConfusion h
                  | some x0 =>
                      rw [h0] at h
                      cases x0 with
                      | some result =>
                          simp only [Option.some.injEq] at h
                          subst h
                          have := ih (setCell b' rc.1 rc.2 0) result h0
                          exact ⟨this.1, this.2.1,
                            boardDims_trans (boardLe_dims hle)
                              (boardDims_trans (setCell_dims b' rc.1 rc.2 0) this.2.2)⟩
                      | none => simp at h

/-! ### Reading off the validator -/

theorem getD_mem {α : Type} (l : List α) (i : Nat) (d : α) (h : i < l.length) :
    l.getD i d ∈ l := by
  induction l generalizing i with
  | nil => simp at h
  | cons x xs ih =>
      cases i with
      | zero => simp
      | succ j =>
          simp only [List.getD_cons_succ]
          exact List.mem_cons_of_mem x (ih j (by simpa using h))

theorem headD_eq_getD_zero (b : Board) : b.headD [] = b.getD 0 [] := by
  cases b <;> rfl

theorem is_valid_board_rows (res : Board) (rh ch : List (List Int))
    (h : is_valid_board res rh ch = true) (r : Nat) (hr : r < res.length)
    (hc : (res.getD r []).all (fun c => c != -1) = true) :
    get_blocks (res.getD r []) = rh.getD r [] := by
  unfold is_valid_board at h
  simp only [Bool.and_eq_true, List.all_eq_true] at h
  have hthis := h.1 r (by simpa using hr)
  rw [List.all_eq_true] at hc
  rw [if_pos hc] at hthis
  exact eq_of_beq hthis

theorem is_valid_board_cols (res : Board) (rh ch : List (List Int))
    (h : is_valid_board res rh ch = true) (c : Nat) (hc : c < (res.headD []).length)
    (hcomp : ((List.range res.length).map
      (fun r => (res.getD r []).getD c (-1))).all (fun x => x != -1) = true) :
    get_blocks ((List.range res.length).map (fun r => (res.getD r []).getD c (-1)))
      = ch.getD c [] := by
  unfold is_valid_board at h
  simp only [Bool.and_eq_true, List.all_eq_true] at h
  have hthis := h.2 c (by simpa using hc)
  rw [List.all_eq_true] at hcomp
  rw [if_pos hcomp] at hthis
  exact eq_of_beq hthis

/-! ### Claim C2 -/

/-- C2: every line-solving operation (`determine_certain_by_range`,
`determine_certain_by_patterns`, hence the dispatcher `determine_certain_cells`
and every propagation pass) preserves already-determined cells: a position
whose cell is not `Unknown` (`-1`) before the call has the same value
afterwards; only `Unknown` cells are ever overwritten. -/
theorem claim_C2 :
    (∀ (hints : List Int) (L : Nat) (s : List Int) (i : Nat), s.getD i (-1) ≠ -1 →
      (determine_certain_by_range hints L s).getD i (-1) = s.getD i (-1)) ∧
    (∀ (hints : List Int) (L : Nat) (s : List Int) (i : Nat), s.getD i (-1) ≠ -1 →
      (determine_certain_by_patterns hints L s).getD i (-1) = s.getD i (-1)) ∧
    (∀ (hints : List Int) (L : Nat) (s : List Int) (i : Nat), s.getD i (-1) ≠ -1 →
      (determine_certain_cells hints L s).getD i (-1) = s.getD i (-1)) ∧
    (∀ (rh ch : List (List Int)) (nr nc : Nat) (b : Board) (r c : Nat),
      cellAt b r c ≠ -1 → cellAt (onePass rh ch nr nc b).1 r c = cellAt b r c) :=
  ⟨determine_certain_by_range_preserves, determine_certain_by_patterns_preserves,
    determine_certain_cells_preserves,
    fun rh ch nr nc b r c h => (onePass_boardLe rh ch nr nc b).2.2 r c h⟩

theorem claim_C2_witness :
    (determine_certain_by_range [1] 2 [1, -1]).getD 0 (-1) = ([1, -1] : List Int).getD 0 (-1) ∧
    (determine_certain_by_patterns [1] 2 [1, -1]).getD 0 (-1)
      = ([1, -1] : List Int).getD 0 (-1) ∧
    (determine_certain_cells [1] 2 [1, -1]).getD 0 (-1) = ([1, -1] : List Int).getD 0 (-1) ∧
    cellAt (onePass [[1]] [[1], [1]] 1 2 [[1, -1]]).1 0 0 = cellAt [[1, -1]] 0 0 :=
  ⟨claim_C2.1 [1] 2 [1, -1] 0 (by decide), claim_C2.2.1 [1] 2 [1, -1] 0 (by decide),
    claim_C2.2.2.1 [1] 2 [1, -1] 0 (by decide),
    claim_C2.2.2.2 [[1]] [[1], [1]] 1 2 [[1, -1]] 0 0 (by decide)⟩

/-! ### Claim C5 -/

/-- C5: the dispatcher `determine_certain_cells` selects the
Pattern-Enumeration method if and only if the line has at least one
non-`Unknown` cell, and otherwise selects the Range-Intersection method, for
every clue, length and line state (rows and columns are not distinguished:
the choice depends only on the line's contents). -/
theorem claim_C5 (hints : List Int) (L : Nat) (s : List Int) :
    ((∃ x ∈ s, x ≠ -1) →
      determine_certain_cells hints L s = determine_certain_by_patterns hints L s) ∧
    ((∀ x ∈ s, x = -1) →
      determine_certain_cells hints L s = determine_certain_by_range hints L s) := by
  constructor
  · rintro ⟨x, hx, hne⟩
    unfold determine_certain_cells
    rw [if_pos (List.any_eq_true.mpr ⟨x, hx, by simpa using hne⟩)]
  · intro hall
    unfold determine_certain_cells
    rw [if_neg (fun hcon => ?_)]
    obtain ⟨x, hx, hbne⟩ := List.any_eq_true.mp hcon
    exact absurd (hall x hx) (by simpa using hbne)

theorem claim_C5_witness :
    determine_certain_cells [1] 2 [1, -1] = determine_certain_by_patterns [1] 2 [1, -1] ∧
    determine_certain_cells [1] 2 [-1, -1] = determine_certain_by_range [1] 2 [-1, -1] :=
  ⟨(claim_C5 [1] 2 [1, -1]).1 ⟨1, by decide, by decide⟩,
    (claim_C5 [1] 2 [-1, -1]).2 (by decide)⟩

/-! ### Claim C7 -/

/-- C7: `solve_with_backtrack` terminates on every input with recursion depth
at most the number of `Unknown` cells of the board it is given: with any call
stack (fuel) budget strictly larger than `unknownCount b` the search completes
(it never exhausts the fuel).  Each recursive call is made on a clone whose
guessed cell is determined and propagation never reverts a determined cell, so
the `Unknown` count strictly decreases along every branch. -/
theorem claim_C7 (rh ch : List (List Int)) (fuel : Nat) (b : Board)
    (h : unknownCount b < fuel) :
    (solve_with_backtrack rh ch fuel b).isSome = true :=
  solve_with_backtrack_isSome rh ch fuel b h

theorem claim_C7_witness :
    unknownCount [[-1]] < 2 ∧ (solve_with_backtrack [[1]] [[1]] 2 [[-1]]).isSome = true :=
  ⟨by decide, claim_C7 [[1]] [[1]] 2 [[-1]] (by decide)⟩

/-! ### Claim C1 -/

/-- C1: whenever `solve_with_backtrack` returns a board rather than `None`,
that board contains no `Unknown` cell and passes the validator: the blocks of
every row of the returned board equal the corresponding row clue, and the
blocks of every column equal the corresponding column clue.  The board given
to the solver has the puzzle's dimensions (`R = len rowClues` rows of length
`C = len colClues` each). -/
theorem claim_C1 (rh ch : List (List Int)) (fuel : Nat) (b res : Board)
    (hR : b.length = rh.length) (hC : ∀ row ∈ b, row.length = ch.length)
    (hsolve : solve_with_backtrack rh ch fuel b = some (some res)) :
    (∀ row ∈ res, ∀ x ∈ row, x ≠ -1) ∧
    (∀ r, r < res.length → get_blocks (res.getD r []) = rh.getD r []) ∧
    (∀ c, c < (res.headD []).length →
      get_blocks ((List.range res.length).map (fun r => (res.getD r []).getD c (-1)))
        = ch.getD c []) := by
  obtain ⟨hFU, hvalid, hdims⟩ := solve_with_backtrack_sound rh ch fuel b res hsolve
  have hcomplete := first_unknown_none res hFU
  refine ⟨hcomplete, fun r hr => ?_, fun c hcc => ?_⟩
  · refine is_valid_board_rows res rh ch hvalid r hr (List.all_eq_true.mpr fun x hx => ?_)
    simpa using hcomplete _ (getD_mem res r [] hr) x hx
  · have hblen : b.length = res.length := hdims.1
    have hrowlen : ∀ r, r < res.length → (res.getD r []).length = ch.length := by
      intro r hr
      rw [← hdims.2 r]
      exact hC _ (getD_mem b r [] (by omega))
    refine is_valid_board_cols res rh ch hvalid c hcc (List.all_eq_true.mpr fun x hx => ?_)
    obtain ⟨r, hrmem, rfl⟩ := List.mem_map.mp hx
    have hrlt : r < res.length := List.mem_range.mp hrmem
    have hclt : c < (res.getD r []).length := by
      rw [hrowlen r hrlt]
      have h0 : 0 < res.length := by omega
      rw [headD_eq_getD_zero] at hcc
      rw [← hrowlen 0 h0]
      exact hcc
    have := hcomplete _ (getD_mem res r [] hrlt) _ (getD_mem _ c (-1) hclt)
    simpa using this

theorem claim_C1_witness :
    solve_with_backtrack [[1]] [[1]] 2 [[-1]] = some (some [[1]]) ∧
    ((∀ row ∈ ([[1]] : Board), ∀ x ∈ row, x ≠ -1) ∧
     (∀ r, r < ([[1]] : Board).length →
        get_blocks (([[1]] : Board).getD r []) = [[1]].getD r []) ∧
     (∀ c, c < (([[1]] : Board).headD []).length →
        get_blocks ((List.range ([[1]] : Board).length).map
          (fun r => (([[1]] : Board).getD r []).getD c (-1))) = [[1]].getD c [])) :=
  ⟨by decide, claim_C1 [[1]] [[1]] 2 [[-1]] [[1]] (by decide) (by decide) (by decide)⟩

/-! ### The pattern enumeration versus the raw placement list -/

theorem intRange_mem (a b x : Int) : x ∈ intRange a b ↔ a ≤ x ∧ x < b := by
  unfold intRange
  constructor
  · intro hx
    obtain ⟨i, hi, hxe⟩ := List.mem_map.mp hx
    have hi' := List.mem_range.mp hi
    omega
  · intro h
    exact List.mem_map.mpr ⟨(x - a).toNat, List.mem_range.mpr (by omega), by omega⟩

theorem map_flatMap_eq {α β γ : Type} (l : List α) (f : α → List β) (g : β → γ) :
    (l.flatMap f).map g = l.flatMap (fun a => (f a).map g) := by
  induction l with
  | nil => rfl
  | cons x xs ih => simp [List.flatMap_cons, ih]

theorem flatMap_congr_mem {α β : Type} (l : List α) (f g : α → List β)
    (h : ∀ a ∈ l, f a = g a) : l.flatMap f = l.flatMap g := by
  induction l with
  | nil => rfl
  | cons x xs ih =>
      simp only [List.flatMap_cons]
      rw [h x (by simp), ih (fun a ha => h a (by simp [ha]))]

theorem compat_check_allU (p : List Int) (n : Nat) :
    compat_check (List.replicate n (-1)) p = true := by
  induction p generalizing n with
  | nil => cases n <;> rfl
  | cons x ps ih =>
      cases n with
      | zero => rfl
      | succ m => simpa [compat_check] using ih m

theorem backtrack_eq_gen (L : Nat) (hints : List Int) :
    ∀ (pos : Int) (cur : List Int),
      backtrack_patterns L (List.replicate L (-1)) hints pos cur
        = (gen L hints pos).map (fun t => cur ++ t) := by
  induction hints with
  | nil =>
      intro pos cur
      simp [backtrack_patterns, gen, compat_check_allU]
  | cons b rest ih =>
      intro pos cur
      simp only [backtrack_patterns, gen, compat_check_allU, if_true]
      rw [map_flatMap_eq]
      refine flatMap_congr_mem _ _ _ (fun start hstart => ?_)
      by_cases hrest : rest = []
      · rw [if_pos hrest, if_pos hrest, ih, List.map_map]
        refine List.map_congr_left (fun t ht => ?_)
        simp [List.append_assoc]
      · rw [if_neg hrest, if_neg hrest, ih, List.map_map]
        refine List.map_congr_left (fun t ht => ?_)
        simp [List.append_assoc]

theorem backtrack_subset_gen (L : Nat) (marked : List Int) (hints : List Int) :
    ∀ (pos : Int) (cur t : List Int),
      t ∈ backtrack_patterns L marked hints pos cur →
      ∃ t', t' ∈ gen L hints pos ∧ t = cur ++ t' := by
  induction hints with
  | nil =>
      intro pos cur t ht
      simp only [backtrack_patterns] at ht
      split at ht
      · simp only [List.mem_singleton] at ht
        exact ⟨List.replicate ((L : Int) - pos).toNat 0, by simp [gen], ht⟩
      · simp at ht
  | cons b rest ih =>
      intro pos cur t ht
      simp only [backtrack_patterns] at ht
      rw [List.mem_flatMap] at ht
      obtain ⟨start, hstart, hbr⟩ := ht
      split at hbr
      · split at hbr
        · next hrest =>
            obtain ⟨t', ht', rfl⟩ := ih (start + b) _ t hbr
            refine ⟨List.replicate (start - pos).toNat 0 ++ List.replicate b.toNat 1 ++ t',
              ?_, by simp [List.append_assoc]⟩
            rw [gen, List.mem_flatMap]
            exact ⟨start, hstart, by rw [if_pos hrest]; exact List.mem_map.mpr ⟨t', ht', rfl⟩⟩
        · next hrest =>
            obtain ⟨t', ht', rfl⟩ := ih (start + b + 1) _ t hbr
            refine ⟨List.replicate (start - pos).toNat 0 ++ List.replicate b.toNat 1 ++ 0 :: t',
              ?_, by simp [List.append_assoc]⟩
            rw [gen, List.mem_flatMap]
            exact ⟨start, hstart, by rw [if_neg hrest]; exact List.mem_map.mpr ⟨t', ht', rfl⟩⟩
      · simp at hbr

theorem sum_nonneg_of_pos (l : List Int) (h : ∀ x ∈ l, 0 < x) : 0 ≤ l.sum := by
  induction l with
  | nil => simp
  | cons x xs ih =>
      have hx := h x (by simp)
      have := ih (fun y hy => h y (by simp [hy]))
      simp only [List.sum_cons]
      omega

theorem gen_mem_length (L : Nat) (hints : List Int) :
    ∀ (pos : Int) (t : List Int), (∀ x ∈ hints, 0 < x) → 0 ≤ pos → pos ≤ (L : Int) →
      t ∈ gen L hints pos → (t.length : Int) = (L : Int) - pos := by
  induction hints with
  | nil =>
      intro pos t _ h0 hL ht
      simp only [gen, List.mem_singleton] at ht
      subst ht
      simp only [List.length_replicate]
      omega
  | cons b rest ih =>
      intro pos t hpos h0 hL ht
      have hb : 0 < b := hpos b (by simp)
      have hrest : ∀ x ∈ rest, 0 < x := fun x hx => hpos x (by simp [hx])
      have hsum : 0 ≤ rest.sum := sum_nonneg_of_pos rest hrest
      simp only [gen, List.mem_flatMap] at ht
      obtain ⟨start, hstart, hbr⟩ := ht
      rw [intRange_mem] at hstart
      split at hbr
      · next hre =>
          subst hre
          obtain ⟨t', ht', rfl⟩ := List.mem_map.mp hbr
          simp only [gen, List.mem_singleton] at ht'
          subst ht'
          simp only [List.length_append, List.length_replicate]
          simp only [List.sum_nil, List.length_nil] at hstart
          omega
      · next hre =>
          obtain ⟨t', ht', rfl⟩ := List.mem_map.mp hbr
          have hlen : (1 : Int) ≤ rest.length := by
            cases rest with
            | nil => exact absurd rfl hre
            | cons y ys =>
                have h5 : (y :: ys).length = ys.length + 1 := by simp
                omega
          have := ih (start + b + 1) t' hrest (by omega) (by omega) ht'
          simp only [List.length_append, List.length_replicate, List.length_cons]
          omega

theorem gen_mem_vals (L : Nat) (hints : List Int) :
    ∀ (pos : Int) (t : List Int), t ∈ gen L hints pos → ∀ x ∈ t, x = 0 ∨ x = 1 := by
  induction hints with
  | nil =>
      intro pos t ht x hx
      simp only [gen, List.mem_singleton] at ht
      subst ht
      exact Or.inl (List.eq_of_mem_replicate hx)
  | cons b rest ih =>
      intro pos t ht x hx
      simp only [gen, List.mem_flatMap] at ht
      obtain ⟨start, hstart, hbr⟩ := ht
      split at hbr
      · obtain ⟨t', ht', rfl⟩ := List.mem_map.mp hbr
        rcases List.mem_append.mp hx with h1 | h2
        · rcases List.mem_append.mp h1 with h3 | h4
          · exact Or.inl (List.eq_of_mem_replicate h3)
          · exact Or.inr (List.eq_of_mem_replicate h4)
        · exact ih (start + b) t' ht' x h2
      · obtain ⟨t', ht', rfl⟩ := List.mem_map.mp hbr
        rcases List.mem_append.mp hx with h1 | h2
        · rcases List.mem_append.mp h1 with h3 | h4
          · exact Or.inl (List.eq_of_mem_replicate h3)
          · exact Or.inr (List.eq_of_mem_replicate h4)
        · rcases List.mem_cons.mp h2 with rfl | h5
          · exact Or.inl rfl
          · exact ih (start + b + 1) t' ht' x h5

theorem get_blocks_aux_zeros (k : Nat) (cnt : Int) :
    get_blocks_aux (List.replicate k 0) cnt = if cnt > 0 then [cnt] else [] := by
  induction k generalizing cnt with
  | zero => rfl
  | succ m ih =>
      have h1 : List.replicate (m + 1) (0 : Int) = 0 :: List.replicate m 0 := by
        simp [List.replicate]
      have h2 : get_blocks_aux ((0 : Int) :: List.replicate m 0) cnt
          = if cnt > 0 then cnt :: get_blocks_aux (List.replicate m 0) 0
            else get_blocks_aux (List.replicate m 0) 0 := by
        simp [get_blocks_aux]
      rw [h1, h2, ih 0]
      rw [if_neg (show ¬(0 : Int) > 0 by decide)]

theorem get_blocks_aux_zeros_append (k : Nat) (l : List Int) :
    get_blocks_aux (List.replicate k 0 ++ l) 0 = get_blocks_aux l 0 := by
  induction k with
  | zero => rfl
  | succ m ih =>
      have h1 : List.replicate (m + 1) (0 : Int) ++ l = 0 :: (List.replicate m 0 ++ l) := by
        simp [List.replicate]
      have h2 : get_blocks_aux ((0 : Int) :: (List.replicate m 0 ++ l)) 0
          = get_blocks_aux (List.replicate m 0 ++ l) 0 := by
        simp [get_blocks_aux]
      rw [h1, h2, ih]

theorem get_blocks_aux_ones_append (m : Nat) (l : List Int) :
    ∀ cnt : Int, get_blocks_aux (List.replicate m 1 ++ l) cnt
      = get_blocks_aux l (cnt + m) := by
  induction m with
  | zero => intro cnt; simp
  | succ k ih =>
      intro cnt
      have h1 : List.replicate (k + 1) (1 : Int) ++ l = 1 :: (List.replicate k 1 ++ l) := by
        simp [List.replicate]
      have h2 : get_blocks_aux ((1 : Int) :: (List.replicate k 1 ++ l)) cnt
          = get_blocks_aux (List.replicate k 1 ++ l) (cnt + 1) := by
        simp [get_blocks_aux]
      rw [h1, h2, ih (cnt + 1)]
      congr 1
      push_cast
      ring

theorem gen_mem_blocks (L : Nat) (hints : List Int) :
    ∀ (pos : Int) (t : List Int), (∀ x ∈ hints, 0 < x) → t ∈ gen L hints pos →
      get_blocks_aux t 0 = hints := by
  induction hints with
  | nil =>
      intro pos t _ ht
      simp only [gen, List.mem_singleton] at ht
      subst ht
      rw [get_blocks_aux_zeros]
      rw [if_neg (by decide)]
  | cons b rest ih =>
      intro pos t hpos ht
      have hb : 0 < b := hpos b (by simp)
      have hrest : ∀ x ∈ rest, 0 < x := fun x hx => hpos x (by simp [hx])
      simp only [gen, List.mem_flatMap] at ht
      obtain ⟨start, hstart, hbr⟩ := ht
      have hbtn : ((b.toNat : Int)) = b := by omega
      split at hbr
      · next hre =>
          subst hre
          obtain ⟨t', ht', rfl⟩ := List.mem_map.mp hbr
          simp only [gen, List.mem_singleton] at ht'
          subst ht'
          rw [List.append_assoc, get_blocks_aux_zeros_append, get_blocks_aux_ones_append,
            get_blocks_aux_zeros]
          rw [if_pos (by omega)]
          simp only [List.cons.injEq]
          exact ⟨by omega, trivial⟩
      · next hre =>
          obtain ⟨t', ht', rfl⟩ := List.mem_map.mp hbr
          rw [List.append_assoc, get_blocks_aux_zeros_append, get_blocks_aux_ones_append]
          have h2 : get_blocks_aux ((0 : Int) :: t') (0 + (b.toNat : Int))
              = if (0 + (b.toNat : Int)) > 0
                then (0 + (b.toNat : Int)) :: get_blocks_aux t' 0
                else get_blocks_aux t' 0 := by
            simp [get_blocks_aux]
          rw [h2, if_pos (by omega), ih (start + b + 1) t' hrest ht']
          simp only [List.cons.injEq]
          exact ⟨by omega, trivial⟩

theorem gen_nonempty (L : Nat) (hints : List Int) :
    ∀ pos : Int, (∀ x ∈ hints, 0 < x) → 0 ≤ pos →
      pos + hints.sum + hints.length - 1 ≤ (L : Int) → ∃ t, t ∈ gen L hints pos := by
  induction hints with
  | nil =>
      intro pos _ _ _
      exact ⟨List.replicate ((L : Int) - pos).toNat 0, by simp [gen]⟩
  | cons b rest ih =>
      intro pos hpos h0 hfeas
      have hb : 0 < b := hpos b (by simp)
      have hrest : ∀ x ∈ rest, 0 < x := fun x hx => hpos x (by simp [hx])
      have hsum : 0 ≤ rest.sum := sum_nonneg_of_pos rest hrest
      simp only [List.sum_cons, List.length_cons] at hfeas
      push_cast at hfeas
      have hstart : pos ∈ intRange pos ((L : Int) - b - (rest.sum + (rest.length : Int)) + 1) := by
        rw [intRange_mem]
        exact ⟨le_refl pos, by omega⟩
      by_cases hre : rest = []
      · subst hre
        have hmem : (List.replicate (pos - pos).toNat 0 ++ List.replicate b.toNat 1 ++
            List.replicate ((L : Int) - (pos + b)).toNat 0) ∈ gen L [b] pos := by
          simp only [gen]
          rw [List.mem_flatMap]
          refine ⟨pos, hstart, ?_⟩
          simp only [if_true]
          exact List.mem_map.mpr ⟨List.replicate ((L : Int) - (pos + b)).toNat 0,
            by simp [gen], rfl⟩
        exact ⟨_, hmem⟩
      · obtain ⟨t', ht'⟩ := ih (pos + b + 1) hrest (by omega)
          (by
            have hlen1 : (1 : Int) ≤ rest.length := by
              cases rest with
              | nil => exact absurd rfl hre
              | cons y ys =>
                  have h5 : (y :: ys).length = ys.length + 1 := by simp
                  omega
            omega)
        have hmem : (List.replicate (pos - pos).toNat 0 ++ List.replicate b.toNat 1 ++
            0 :: t') ∈ gen L (b :: rest) pos := by
          simp only [gen]
          rw [List.mem_flatMap]
          refine ⟨pos, hstart, ?_⟩
          rw [if_neg hre]
          exact List.mem_map.mpr ⟨t', ht', rfl⟩
        exact ⟨_, hmem⟩

theorem getD_prefix_one (pos start b : Int) (X : List Int) (i : Int)
    (hps : pos ≤ start) (hb : 0 < b) (h1 : start ≤ i) (h2 : i ≤ start + b - 1) :
    (List.replicate (start - pos).toNat 0 ++ List.replicate b.toNat 1 ++ X).getD
      (i - pos).toNat 0 = 1 := by
  rw [getD_append_left _ _ _ _ (by simp only [List.length_append, List.length_replicate]; omega)]
  rw [getD_append_right _ _ _ _ (by simp only [List.length_replicate]; omega)]
  rw [getD_replicate_char]
  rw [if_pos (by simp only [List.length_replicate]; omega)]

theorem gen_mem_fill (L : Nat) (hints : List Int) :
    ∀ (pos : Int) (t : List Int) (j : Nat) (i : Int),
      (∀ x ∈ hints, 0 < x) → t ∈ gen L hints pos → j < hints.length →
      (L : Int) - hints.getD j 0
          - ((hints.drop (j + 1)).sum + ((hints.drop (j + 1)).length : Int)) ≤ i →
      i ≤ pos + (hints.take j).sum + j + hints.getD j 0 - 1 →
      pos ≤ i ∧ t.getD (i - pos).toNat 0 = 1 := by
  induction hints with
  | nil => intro pos t j i _ _ hj _ _; simp at hj
  | cons b rest ih =>
      intro pos t j i hpos hmem hj hlo hhi
      have hb : 0 < b := hpos b (by simp)
      have hrest : ∀ x ∈ rest, 0 < x := fun x hx => hpos x (by simp [hx])
      simp only [gen, List.mem_flatMap] at hmem
      obtain ⟨start, hstart, hbr⟩ := hmem
      rw [intRange_mem] at hstart
      cases j with
      | zero =>
          simp only [List.getD_cons_zero, List.drop_succ_cons, List.drop_zero] at hlo
          simp only [List.take_zero, List.sum_nil, List.getD_cons_zero, Nat.cast_zero] at hhi
          refine ⟨by omega, ?_⟩
          split at hbr
          · obtain ⟨t', ht', rfl⟩ := List.mem_map.mp hbr
            exact getD_prefix_one pos start b t' i hstart.1 hb (by omega) (by omega)
          · obtain ⟨t', ht', rfl⟩ := List.mem_map.mp hbr
            exact getD_prefix_one pos start b (0 :: t') i hstart.1 hb (by omega) (by omega)
      | succ j' =>
          split at hbr
          · next hre =>
              subst hre
              exact absurd hj (by simp)
          · next hre =>
              obtain ⟨t', ht', rfl⟩ := List.mem_map.mp hbr
              have hj' : j' < rest.length := by simpa using hj
              simp only [List.getD_cons_succ, List.drop_succ_cons] at hlo
              simp only [List.take_succ_cons, List.sum_cons, List.getD_cons_succ] at hhi
              have hih := ih (start + b + 1) t' j' i hrest ht' hj' hlo
                (by push_cast at hhi ⊢; omega)
              refine ⟨by omega, ?_⟩
              rw [getD_append_right _ _ _ _
                (by simp only [List.length_append, List.length_replicate]; omega)]
              have hm : (i - pos).toNat -
                  (List.replicate (start - pos).toNat (0 : Int)
                    ++ List.replicate b.toNat 1).length
                  = (i - (start + b + 1)).toNat + 1 := by
                simp only [List.length_append, List.length_replicate]
                omega
              rw [hm, List.getD_cons_succ]
              exact hih.2

theorem backtrack_mem_compat (L : Nat) (marked : List Int) (hints : List Int) :
    ∀ (pos : Int) (cur t : List Int), t ∈ backtrack_patterns L marked hints pos cur →
      compat_check marked t = true := by
  induction hints with
  | nil =>
      intro pos cur t ht
      simp only [backtrack_patterns] at ht
      split at ht
      · next hcomp =>
          simp only [List.mem_singleton] at ht
          subst ht
          exact hcomp
      · simp at ht
  | cons b rest ih =>
      intro pos cur t ht
      simp only [backtrack_patterns] at ht
      rw [List.mem_flatMap] at ht
      obtain ⟨start, _, hbr⟩ := ht
      split at hbr
      · split at hbr
        · exact ih _ _ t hbr
        · exact ih _ _ t hbr
      · simp at hbr

theorem compat_check_getD (m : List Int) :
    ∀ p : List Int, compat_check m p = true → ∀ i, i < m.length → i < p.length →
      m.getD i (-1) ≠ -1 → p.getD i 0 = m.getD i (-1) := by
  induction m with
  | nil => intro p h i him; simp at him
  | cons m0 ms ih =>
      intro p h i him hip hne
      cases p with
      | nil => simp at hip
      | cons p0 ps =>
          simp only [compat_check, Bool.and_eq_true, Bool.or_eq_true] at h
          cases i with
          | zero =>
              simp only [List.getD_cons_zero] at hne ⊢
              rcases h.1 with h1 | h1
              · exact absurd (eq_of_beq h1) hne
              · exact (eq_of_beq h1).symm
          | succ i' =>
              simp only [List.getD_cons_succ] at hne ⊢
              exact ih ps h.2 i' (by simpa using him) (by simpa using hip) hne

theorem generate_all_patterns_allU (hints : List Int) (L : Nat)
    (hne : ¬(hints = [] ∨ hints = [0])) :
    generate_all_patterns hints L (List.replicate L (-1)) = gen L hints 0 := by
  unfold generate_all_patterns
  rw [if_neg hne, backtrack_eq_gen]
  simp

/-! ### Claim C10 -/

/-- C10 (implicit): soundness of the pattern enumerator.  For a clue of
positive block lengths (or the `[0]`/empty clue), line length `L` and a line
state of length `L`, every pattern returned by `generate_all_patterns` has
length exactly `L`, contains only `Filled`/`Blank` values, agrees with the
state at every already-determined position, and `get_blocks` of it equals the
clue (`[0]` for the `[0]`/empty clue). -/
theorem claim_C10 (hints : List Int) (L : Nat) (marked : List Int)
    (hlen : marked.length = L)
    (hgood : hints = [] ∨ hints = [0] ∨ (∀ x ∈ hints, 0 < x)) :
    ∀ p ∈ generate_all_patterns hints L marked,
      p.length = L ∧ (∀ x ∈ p, x = 0 ∨ x = 1) ∧
      (∀ i, i < L → marked.getD i (-1) ≠ -1 → p.getD i 0 = marked.getD i (-1)) ∧
      get_blocks p = (if hints = [] ∨ hints = [0] then [0] else hints) := by
  intro p hp
  by_cases hez : hints = [] ∨ hints = [0]
  · unfold generate_all_patterns at hp
    rw [if_pos hez] at hp
    split at hp
    · next hall =>
        simp only [List.mem_singleton] at hp
        subst hp
        refine ⟨by simp, fun x hx => Or.inl (List.eq_of_mem_replicate hx),
          fun i hi hne => ?_, ?_⟩
        · rw [getD_replicate_char, if_pos hi]
          rw [List.all_eq_true] at hall
          have hmk := hall i (List.mem_range.mpr hi)
          simp only [Bool.or_eq_true, beq_iff_eq] at hmk
          rcases hmk with hmk | hmk
          · exact absurd hmk hne
          · rw [hmk]
        · rw [if_pos hez]
          simp only [get_blocks]
          rw [get_blocks_aux_zeros, if_neg (show ¬(0 : Int) > 0 by decide), if_pos rfl]
    · simp at hp
  · have hpos : ∀ x ∈ hints, 0 < x := by
      rcases hgood with h | h | h
      · exact absurd (Or.inl h) hez
      · exact absurd (Or.inr h) hez
      · exact h
    unfold generate_all_patterns at hp
    rw [if_neg hez] at hp
    have hcompat := backtrack_mem_compat L marked hints 0 [] _ hp
    obtain ⟨t', ht', hpeq⟩ := backtrack_subset_gen L marked hints 0 [] p hp
    rw [List.nil_append] at hpeq
    subst hpeq
    have hlen' := gen_mem_length L hints 0 p hpos (le_refl 0) (by omega) ht'
    have hlenp : p.length = L := by omega
    refine ⟨hlenp, fun x hx => gen_mem_vals L hints 0 p ht' x hx,
      fun i hi hne => ?_, ?_⟩
    · exact compat_check_getD marked p hcompat i (by omega)
        (by rw [hlenp]; exact hi) hne
    · rw [if_neg hez]
      simp only [get_blocks]
      rw [gen_mem_blocks L hints 0 p hpos ht']
      rw [if_neg (fun hcon => hez (Or.inl hcon))]

theorem claim_C10_witness :
    ([-1, 1] : List Int).length = 2 ∧
    (([0, 1] : List Int) ∈ generate_all_patterns [1] 2 [-1, 1]) ∧
    (([0, 1] : List Int).length = 2 ∧ (∀ x ∈ ([0, 1] : List Int), x = 0 ∨ x = 1) ∧
     (∀ i, i < 2 → ([-1, 1] : List Int).getD i (-1) ≠ -1 →
        ([0, 1] : List Int).getD i 0 = ([-1, 1] : List Int).getD i (-1)) ∧
     get_blocks [0, 1] = (if ([1] : List Int) = [] ∨ ([1] : List Int) = [0]
        then [0] else [1])) :=
  ⟨rfl, by decide,
    claim_C10 [1] 2 [-1, 1] rfl (Or.inr (Or.inr (by decide))) [0, 1] (by decide)⟩

/-! ### Claim C3 (corrected: needs a feasible clue) -/

/-- C3, amended: on a line whose cells are all `Unknown`, every cell that the
Range-Intersection method determines is determined identically by the
Pattern-Enumeration method, provided the clue is `[]`, `[0]`, or a list of
positive blocks that is feasible for the length (`sum + count - 1 ≤ L`).  (For
an infeasible clue the claim fails: the range method still forces cells while
the enumeration is empty and forces none — see the counterexample.) -/
theorem claim_C3 (hints : List Int) (L : Nat)
    (hgood : hints = [] ∨ hints = [0] ∨
      ((∀ x ∈ hints, 0 < x) ∧ hints.sum + (hints.length : Int) - 1 ≤ (L : Int))) :
    ∀ i : Nat,
      (determine_certain_by_range hints L (List.replicate L (-1))).getD i (-1) ≠ -1 →
      (determine_certain_by_patterns hints L (List.replicate L (-1))).getD i (-1)
        = (determine_certain_by_range hints L (List.replicate L (-1))).getD i (-1) := by
  intro i hne
  by_cases hez : hints = [] ∨ hints = [0]
  · unfold determine_certain_by_range determine_certain_by_patterns
    rw [if_pos hez, if_pos hez]
  · have hpf : (∀ x ∈ hints, 0 < x) ∧ hints.sum + (hints.length : Int) - 1 ≤ (L : Int) := by
      rcases hgood with h | h | h
      · exact absurd (Or.inl h) hez
      · exact absurd (Or.inr h) hez
      · exact h
    obtain ⟨hpos, hfeas⟩ := hpf
    have hilt : i < L := by
      by_contra hge
      exact hne (getD_of_le_length _ _ _
        (by rw [determine_certain_by_range_length]; simp; omega))
    have hU : (List.replicate L (-1 : Int)).getD i (-1) = -1 := by
      rw [getD_replicate_char, if_pos hilt]
    have hchar := determine_certain_by_range_getD hints L (List.replicate L (-1)) hez i
      (by simpa using hilt)
    have hcov : range_rule_covers hints L i := by
      by_contra hnc
      exact hne (by rw [hchar, if_neg (fun hcon => hnc hcon.2)]; exact hU)
    have hval : (determine_certain_by_range hints L (List.replicate L (-1))).getD i (-1)
        = 1 := by
      rw [hchar, if_pos ⟨hU, hcov⟩]
    rw [hval]
    have hgenq := generate_all_patterns_allU hints L hez
    obtain ⟨j, hj, hlo, hhi⟩ := hcov
    have hall1 : ∀ p ∈ gen L hints 0, p.getD i 0 = 1 := by
      intro p hp
      have hfill := gen_mem_fill L hints 0 p j (i : Int) hpos hp hj hlo (by omega)
      have h2 := hfill.2
      have hid : ((i : Int) - 0).toNat = i := by omega
      rw [hid] at h2
      exact h2
    obtain ⟨t0, ht0⟩ := gen_nonempty L hints 0 hpos (le_refl 0) (by omega)
    cases hpats : generate_all_patterns hints L (List.replicate L (-1)) with
    | nil =>
        rw [hgenq] at hpats
        rw [hpats] at ht0
        simp at ht0
    | cons p0 ps =>
        have hred : determine_certain_by_patterns hints L (List.replicate L (-1))
            = intersect_patterns (p0 :: ps) p0 (List.replicate L (-1)) 0 := by
          unfold determine_certain_by_patterns
          rw [if_neg hez, hpats]
        have hp0 : p0 ∈ gen L hints 0 := by
          rw [← hgenq, hpats]
          simp
        have hmem : ∀ p ∈ (p0 :: ps), p ∈ gen L hints 0 := by
          intro p hp
          rw [← hgenq, hpats]
          exact hp
        rw [hred, intersect_patterns_getD _ _ _ _ _ (by simpa using hilt)]
        have hags : ((p0 :: ps).all
            (fun p => p.getD (0 + i) 0 == p0.getD (0 + i) 0)) = true := by
          rw [List.all_eq_true]
          intro p hp
          simp only [Nat.zero_add]
          rw [hall1 p (hmem p hp), hall1 p0 hp0]
          decide
        rw [if_pos ⟨hU, hags⟩]
        simp only [Nat.zero_add]
        exact hall1 p0 hp0

/-- C3, counterexample to the claim as stated (quantified over every clue):
for the infeasible clue `[3]` on a length-2 all-`Unknown` line, the
Range-Intersection method forces cell 0 to `Filled` but the
Pattern-Enumeration method leaves it `Unknown`. -/
theorem claim_C3_counterexample :
    (determine_certain_by_range [3] 2 (List.replicate 2 (-1))).getD 0 (-1) = 1 ∧
    (determine_certain_by_patterns [3] 2 (List.replicate 2 (-1))).getD 0 (-1) = -1 := by
  decide

theorem claim_C3_witness :
    ((determine_certain_by_range [3] 5 (List.replicate 5 (-1))).getD 2 (-1) ≠ -1) ∧
    (determine_certain_by_patterns [3] 5 (List.replicate 5 (-1))).getD 2 (-1)
      = (determine_certain_by_range [3] 5 (List.replicate 5 (-1))).getD 2 (-1) :=
  ⟨by decide, claim_C3 [3] 5 (Or.inr (Or.inr ⟨by decide, by decide⟩)) 2 (by decide)⟩

/-! ### Claim C4 (corrected: infeasible clues still force cells) -/

/-- C4, amended: `determine_certain_by_range` implements the range-intersection
rule.  For the `[0]`/empty clue every `Unknown` cell becomes `Blank`.  For any
other clue, a cell becomes `Filled` exactly when it was `Unknown` and lies in
the interval `[rightmost_start, leftmost_start + b_j - 1]` of some block `j`
(formulas of §4.2, `range_rule_covers`); all other cells are returned
unchanged, and no error is ever signalled (the function is total).  The claim's
assertion that an infeasible clue (`sum + count - 1 > L`) produces no forced
cells is false — the same interval rule applies and can be non-empty; see the
counterexample. -/
theorem claim_C4 (hints : List Int) (L : Nat) (marked : List Int)
    (hlen : marked.length = L) :
    ((hints = [] ∨ hints = [0]) → ∀ i, i < L →
      (determine_certain_by_range hints L marked).getD i (-1)
        = if marked.getD i (-1) = -1 then 0 else marked.getD i (-1)) ∧
    (¬(hints = [] ∨ hints = [0]) → ∀ i, i < L →
      (determine_certain_by_range hints L marked).getD i (-1)
        = if marked.getD i (-1) = -1 ∧ range_rule_covers hints L i then 1
          else marked.getD i (-1)) := by
  constructor
  · intro hez i hi
    unfold determine_certain_by_range
    rw [if_pos hez]
    exact blank_unknowns_getD marked i (by omega)
  · intro hez i hi
    exact determine_certain_by_range_getD hints L marked hez i (by omega)

/-- C4, counterexample to the claim as stated: the clue `[3]` is infeasible
for line length 2 (`sum + count - 1 = 3 > 2`), yet the method forces cells
(the line is changed) rather than producing no forced cells. -/
theorem claim_C4_counterexample :
    ((3 : Int) + 1 - 1 > 2) ∧
    determine_certain_by_range [3] 2 [-1, -1] ≠ [-1, -1] := by decide

theorem claim_C4_witness :
    (¬(([1] : List Int) = [] ∨ ([1] : List Int) = [0])) ∧
    ((determine_certain_by_range [1] 1 [-1]).getD 0 (-1)
      = if ([-1] : List Int).getD 0 (-1) = -1 ∧ range_rule_covers [1] 1 0 then 1
        else ([-1] : List Int).getD 0 (-1)) :=
  ⟨by decide, (claim_C4 [1] 1 [-1] rfl).2 (by decide) 0 (by decide)⟩

/-! ### Claim C6 (corrected: only holds away from the `[0]`/empty clue) -/

/-- C6, amended: for every clue other than `[]`/`[0]`, if the enumeration in
`generate_all_patterns` is empty then `determine_certain_by_patterns` returns
the line unchanged and raises no error.  (For the `[]`/`[0]` clue the method
blanks `Unknown` cells before ever consulting the enumeration, so a
contradicted `[0]` line is changed even though the enumeration is empty — see
the counterexample.) -/
theorem claim_C6 (hints : List Int) (L : Nat) (marked : List Int)
    (h1 : hints ≠ []) (h2 : hints ≠ [0])
    (hempty : generate_all_patterns hints L marked = []) :
    determine_certain_by_patterns hints L marked = marked := by
  unfold determine_certain_by_patterns
  rw [if_neg (by rintro (h | h); exacts [h1 h, h2 h]), hempty]

/-- C6, counterexample to the claim as stated: with the clue `[0]` and the
contradictory state `[Filled, Unknown]` the enumeration is empty, yet
`determine_certain_by_patterns` changes the line (it blanks the `Unknown`
cell). -/
theorem claim_C6_counterexample :
    generate_all_patterns [0] 2 [1, -1] = [] ∧
    determine_certain_by_patterns [0] 2 [1, -1] ≠ [1, -1] := by decide

theorem claim_C6_witness :
    generate_all_patterns [2] 1 [-1] = [] ∧
    determine_certain_by_patterns [2] 1 [-1] = [-1] :=
  ⟨by decide, claim_C6 [2] 1 [-1] (by decide) (by decide) (by decide)⟩

/-! ### A pass that reports no change leaves the board unchanged -/

theorem set_of_le_length {α : Type} (l : List α) (n : Nat) (a : α) (h : l.length ≤ n) :
    l.set n a = l := by
  induction l generalizing n with
  | nil => rfl
  | cons x xs ih =>
      cases n with
      | zero => simp at h
      | succ m => simp [List.set, ih m (by simpa using h)]

theorem colStep_nochange (ch : List (List Int)) (nr : Nat) (acc : Board × Bool) (c : Nat)
    (h : (colStep ch nr acc c).2 = false) :
    (colStep ch nr acc c).1 = acc.1 ∧ acc.2 = false := by
  unfold colStep at h ⊢
  simp only [Bool.or_eq_false_iff] at h
  refine ⟨?_, h.1⟩
  set colState := (List.range nr).map (fun r => (acc.1.getD r []).getD c (-1)) with hcs
  set newCol := determine_certain_cells (ch.getD c []) nr colState with hnc
  have hlen : newCol.length = nr := by
    rw [hnc, determine_certain_cells_length, hcs]
    simp
  have hagree : ∀ r, r < nr → (acc.1.getD r []).getD c (-1) = newCol.getD r (-1) := by
    intro r hr
    have := h.2
    rw [List.any_eq_false] at this
    have h3 := this r (List.mem_range.mpr hr)
    simpa using h3
  have hrow : ∀ (bd : Board) (r0 : Nat),
      (∀ r, r < bd.length → bd.getD r [] = acc.1.getD (r0 + r) []) →
      set_col c newCol bd r0 = bd := by
    intro bd
    induction bd with
    | nil => intro r0 _; rfl
    | cons row rest ihb =>
        intro r0 hrows
        have hhead : row = acc.1.getD (r0 + 0) [] := by
          have := hrows 0 (by simp)
          simpa using this
        simp only [set_col, List.cons.injEq]
        refine ⟨?_, ?_⟩
        case _ =>
          by_cases hrn : r0 < nr
          · rw [getD_irrel newCol r0 _ (-1) (by omega), ← hagree r0 hrn]
            rw [Nat.add_zero] at hhead
            rw [← hhead]
            exact set_getD_self row c (-1)
          · rw [getD_of_le_length newCol r0 _ (by omega)]
            exact set_getD_self row c (-1)
        case _ =>
          refine ihb (r0 + 1) (fun r hr => ?_)
          have := hrows (r + 1) (by simpa using hr)
          simpa [List.getD, Nat.add_assoc, Nat.add_comm 1 r] using this
  exact hrow acc.1 0 (fun r hr => by rw [Nat.zero_add])

theorem rowStep_nochange (rh : List (List Int)) (nc : Nat) (acc : Board × Bool) (r : Nat)
    (hrect : RectW acc.1 nc) (h : (rowStep rh nc acc r).2 = false) :
    (rowStep rh nc acc r).1 = acc.1 ∧ acc.2 = false := by
  simp only [rowStep, Bool.or_eq_false_iff] at h ⊢
  refine ⟨?_, h.1⟩
  by_cases hr : r < acc.1.length
  · set rowState := acc.1.getD r [] with hrs
    set newRow := determine_certain_cells (rh.getD r []) nc rowState with hnr
    have hlen : newRow.length = rowState.length := by
      rw [hnr, determine_certain_cells_length]
    have hwid : rowState.length = nc := hrect r hr
    have hagree : ∀ cc, cc < nc → rowState.getD cc (-1) = newRow.getD cc (-1) := by
      intro cc hcc
      have h2 := h.2
      rw [List.any_eq_false] at h2
      have h3 := h2 cc (List.mem_range.mpr hcc)
      simpa using h3
    have heq : newRow = rowState :=
      (ext_of_getD rowState newRow (-1) (by omega)
        (fun i hi => hagree i (by omega))).symm
    rw [heq, hrs]
    exact set_getD_self acc.1 r []
  · exact set_of_le_length acc.1 r _ (by omega)

theorem colStep_rectW (ch : List (List Int)) (nr : Nat) (acc : Board × Bool) (c : Nat)
    (nc : Nat) (h : RectW acc.1 nc) : RectW (colStep ch nr acc c).1 nc := by
  intro r hr
  have hd := colStep_boardLe ch nr acc c
  rw [← hd.2.1 r]
  exact h r (by rw [hd.1]; exact hr)

theorem rowStep_rectW (rh : List (List Int)) (nc' : Nat) (acc : Board × Bool) (r : Nat)
    (nc : Nat) (h : RectW acc.1 nc) : RectW (rowStep rh nc' acc r).1 nc := by
  intro r' hr'
  have hd := rowStep_boardLe rh nc' acc r
  rw [← hd.2.1 r']
  exact h r' (by rw [hd.1]; exact hr')

theorem foldl_flag_mono {α : Type} (step : Board × Bool → α → Board × Bool)
    (hstep : ∀ acc x, acc.2 = true → (step acc x).2 = true) :
    ∀ (l : List α) (acc : Board × Bool), acc.2 = true → (l.foldl step acc).2 = true := by
  intro l
  induction l with
  | nil => intro acc h; exact h
  | cons x xs ih => intro acc h; exact ih (step acc x) (hstep acc x h)

theorem foldl_nochange {α : Type} (step : Board × Bool → α → Board × Bool) (nc : Nat)
    (hstep : ∀ acc x, RectW acc.1 nc → (step acc x).2 = false →
      (step acc x).1 = acc.1 ∧ acc.2 = false)
    (hrect : ∀ acc x, RectW acc.1 nc → RectW (step acc x).1 nc) :
    ∀ (l : List α) (acc : Board × Bool), RectW acc.1 nc → (l.foldl step acc).2 = false →
      (l.foldl step acc).1 = acc.1 ∧ acc.2 = false := by
  intro l
  induction l with
  | nil => intro acc _ h; exact ⟨rfl, h⟩
  | cons x xs ih =>
      intro acc hR h
      simp only [List.foldl_cons] at h ⊢
      have hrec := ih (step acc x) (hrect acc x hR) h
      have hs := hstep acc x hR hrec.2
      exact ⟨hrec.1.trans hs.1, hs.2⟩

theorem colStep_flag_mono (ch : List (List Int)) (nr : Nat) (acc : Board × Bool) (c : Nat)
    (h : acc.2 = true) : (colStep ch nr acc c).2 = true := by
  unfold colStep
  rw [h]
  simp

theorem rowStep_flag_mono (rh : List (List Int)) (nc : Nat) (acc : Board × Bool) (r : Nat)
    (h : acc.2 = true) : (rowStep rh nc acc r).2 = true := by
  unfold rowStep
  rw [h]
  simp

theorem onePass_nochange (rh ch : List (List Int)) (nr nc : Nat) (b : Board)
    (hrect : RectW b nc) (h : (onePass rh ch nr nc b).2 = false) :
    (onePass rh ch nr nc b).1 = b := by
  unfold onePass at h ⊢
  set mid := (List.range nc).foldl (colStep ch nr) (b, false) with hmid
  have hmidrect : RectW mid.1 nc := by
    rw [hmid]
    have : ∀ (l : List Nat) (acc : Board × Bool), RectW acc.1 nc →
        RectW (l.foldl (colStep ch nr) acc).1 nc := by
      intro l
      induction l with
      | nil => intro acc hx; exact hx
      | cons x xs ih =>
          intro acc hx
          exact ih (colStep ch nr acc x) (colStep_rectW ch nr acc x nc hx)
    exact this (List.range nc) (b, false) hrect
  have hrows := foldl_nochange (rowStep rh nc) nc
    (fun acc x hR hf => rowStep_nochange rh nc acc x hR hf)
    (fun acc x hR => rowStep_rectW rh nc acc x nc hR)
    (List.range nr) mid hmidrect h
  have hcols := foldl_nochange (colStep ch nr) nc
    (fun acc x _ hf => colStep_nochange ch nr acc x hf)
    (fun acc x hR => colStep_rectW ch nr acc x nc hR)
    (List.range nc) (b, false) hrect hrows.2
  rw [hrows.1, hcols.1]

theorem propLoop_succ (rh ch : List (List Int)) (nr nc n : Nat) (b : Board) :
    propLoop rh ch nr nc (n + 1) b
      = if (onePass rh ch nr nc b).2
        then propLoop rh ch nr nc n (onePass rh ch nr nc b).1
        else (onePass rh ch nr nc b).1 := rfl

/-! ### Claim C8 -/

/-- C8: fixpoint idempotence.  If `solve_with_constraint_propagation` has
reached a state from which a full pass produces no cell change (the situation
after the loop terminates at fixpoint rather than at the iteration cap),
running `solve_with_constraint_propagation` again on the resulting board
changes no cell.  The input board is rectangular, as every board the solver
builds is. -/
theorem claim_C8 (rh ch : List (List Int)) (b : Board)
    (hrect : RectW b (b.headD []).length)
    (hfix : (onePass rh ch (solve_with_constraint_propagation b rh ch).length
        ((solve_with_constraint_propagation b rh ch).headD []).length
        (solve_with_constraint_propagation b rh ch)).2 = false) :
    solve_with_constraint_propagation (solve_with_constraint_propagation b rh ch) rh ch
      = solve_with_constraint_propagation b rh ch := by
  have hdims := boardLe_dims (solve_with_constraint_propagation_boardLe b rh ch)
  set p := solve_with_constraint_propagation b rh ch with hp
  have hprect : RectW p ((p.headD []).length) := by
    intro r hr
    rw [headD_eq_getD_zero, ← hdims.2 r, ← hdims.2 0, ← headD_eq_getD_zero]
    exact hrect r (by rw [hdims.1]; exact hr)
  show propLoop rh ch p.length (p.headD []).length 1000 p = p
  rw [show (1000 : Nat) = 999 + 1 from rfl, propLoop_succ]
  rw [if_neg (by rw [hfix]; exact Bool.false_ne_true)]
  exact onePass_nochange rh ch p.length (p.headD []).length p hprect hfix

theorem claim_C8_witness :
    (onePass [[1]] [[1]]
      (solve_with_constraint_propagation [[-1]] [[1]] [[1]]).length
      ((solve_with_constraint_propagation [[-1]] [[1]] [[1]]).headD []).length
      (solve_with_constraint_propagation [[-1]] [[1]] [[1]])).2 = false ∧
    solve_with_constraint_propagation
        (solve_with_constraint_propagation [[-1]] [[1]] [[1]]) [[1]] [[1]]
      = solve_with_constraint_propagation [[-1]] [[1]] [[1]] :=
  ⟨by decide, claim_C8 [[1]] [[1]] [[-1]]
    (by
      intro r hr
      have h1 : ([[-1]] : Board).length = 1 := rfl
      have h0 : r = 0 := by omega
      subst h0
      rfl)
    (by decide)⟩

/-! ### Claim C9 -/

theorem ui_runs_succ (rh ch : List (List Int)) (nr nc iter : Nat) (b : Board) (k : Nat) :
    ui_runs rh ch nr nc iter b (k + 1)
      = ui_runs rh ch nr nc (iter + 1) (ui_iteration rh ch nr nc iter b).1 k := rfl

theorem ui_loop_hist (rh ch : List (List Int)) (nr nc : Nat) :
    ∀ (n iter : Nat) (b : Board) (hist : List Board),
      ∃ m, m ≤ n ∧
        (ui_loop rh ch nr nc n iter b hist).2
          = hist ++ (List.range m).map (fun k => ui_runs rh ch nr nc iter b (k + 1)) ∧
        (ui_loop rh ch nr nc n iter b hist).1 = ui_runs rh ch nr nc iter b m := by
  intro n
  induction n with
  | zero =>
      intro iter b hist
      exact ⟨0, Nat.le_refl 0, by simp [ui_loop, ui_runs], by simp [ui_loop, ui_runs]⟩
  | succ n ih =>
      intro iter b hist
      simp only [ui_loop]
      by_cases hflag : (ui_iteration rh ch nr nc iter b).2 = true
      · rw [if_pos hflag]
        obtain ⟨m, hm, hh, hb⟩ :=
          ih (iter + 1) (ui_iteration rh ch nr nc iter b).1 (hist ++ [(ui_iteration rh ch nr nc iter b).1])
        refine ⟨m + 1, by omega, ?_, ?_⟩
        · rw [hh, List.append_assoc, List.singleton_append, List.range_succ_eq_map,
            List.map_cons, List.map_map]
          rfl
        · rw [hb]
          rfl
      · rw [if_neg hflag]
        refine ⟨1, by omega, ?_, ?_⟩
        · rfl
        · rfl

/-- C9, corrected: `NonogramUI.solve_puzzle` appends exactly one snapshot of
the board after each executed loop iteration, but an iteration applies the
dispatcher only to every column (even iteration numbers) or only to every row
(odd iteration numbers) — never to both.  `BoardHistory` therefore holds one
snapshot per executed half-pass (at most 10), the `k`-th entry being the board
after `k+1` iterations; `solve_with_constraint_propagation` maintains no
history at all.  The claim's "one snapshot per completed full
(columns-then-rows) pass" is refuted by the counterexample. -/
theorem claim_C9 (rh ch : List (List Int)) :
    ∃ m, m ≤ 10 ∧
      (solve_puzzle rh ch).2 = (List.range m).map
        (fun k => ui_runs rh ch rh.length ch.length 0
          (List.replicate rh.length (List.replicate ch.length (-1))) (k + 1)) ∧
      (solve_puzzle rh ch).1 = ui_runs rh ch rh.length ch.length 0
        (List.replicate rh.length (List.replicate ch.length (-1))) m := by
  obtain ⟨m, hm, hh, hb⟩ := ui_loop_hist rh ch rh.length ch.length 10 0
    (List.replicate rh.length (List.replicate ch.length (-1))) []
  exact ⟨m, hm, by simpa [solve_puzzle] using hh, by simpa [solve_puzzle] using hb⟩

/-- C9, counterexample to the claim as stated: on the puzzle with row clues
`[[2], [0]]` and column clues `[[1], [1]]`, the first (columns-only) iteration
changes nothing, so `solve_puzzle` stops with exactly one history snapshot —
the still-unsolved all-`Unknown` board — while a full columns-then-rows pass
of the Propagation Engine produces `[[1, 1], [0, 0]]`.  The history therefore
does not hold one snapshot per completed full pass. -/
theorem claim_C9_counterexample :
    (solve_puzzle [[2], [0]] [[1], [1]]).2 = [[[-1, -1], [-1, -1]]] ∧
    (onePass [[2], [0]] [[1], [1]] 2 2 [[-1, -1], [-1, -1]]).1 = [[1, 1], [0, 0]] ∧
    (solve_puzzle [[2], [0]] [[1], [1]]).2.getD 0 []
      ≠ (onePass [[2], [0]] [[1], [1]] 2 2 [[-1, -1], [-1, -1]]).1 := by decide

end Nonogram
